import Mathlib

/-!
Verification of the chainlit-demo knowledge-base chatbot (`app.py`).

Python strings are modelled as `List Char`; Python `float` arithmetic on
similarity scores is modelled exactly over `ℚ` (the scores the program
computes are ratios of small integers, and the weights and thresholds are
decimal constants).  Rational constants are written with `mkRat` and the
helper operations `qMul`, `qMax` so that all score computations reduce in
the kernel.

The embedding follows `src/app.py` and the parts of the Python standard
library it calls with fixed arguments (`difflib.SequenceMatcher(None, a, b)`
with `isjunk = None` and `autojunk = True`, `str.lower`/`strip`/`split` at
ASCII level, `json` load/save modelled at the JSON-value level).
-/

namespace App

/-- Convert a string literal to the `List Char` representation used throughout. -/
def str (s : String) : List Char := s.data

/-- Kernel-reducible product of rationals (equal to `a * b`, proved below). -/
def qMul (a b : ℚ) : ℚ := mkRat (a.num * b.num) (a.den * b.den)

/-- Kernel-reducible maximum of rationals (equal to `max a b`, proved below). -/
def qMax (a b : ℚ) : ℚ := if a < b then b else a

/-! ## Python string primitives (ASCII-level model)

`str.lower` is modelled on the ASCII letters (the repository's data and
commands are ASCII); `str.split()`/`str.strip()` use the ASCII whitespace
set of CPython. -/

/-- The whitespace characters recognised by Python `str.split()` / `str.strip()`
(ASCII part: space, tab, newline, carriage return, vertical tab, form feed). -/
def pyIsSpace (c : Char) : Bool :=
  (c == ' ') || (c == '\t') || (c == '\n') || (c == '\r') ||
  (c == '\x0b') || (c == '\x0c')

/-- Python `str.lower` on one character (ASCII range). -/
def pyToLower (c : Char) : Char :=
  if 65 ≤ c.toNat ∧ c.toNat ≤ 90 then Char.ofNat (c.toNat + 32) else c

/-- Python `str.lower`. -/
def pyLowerL (s : List Char) : List Char := s.map pyToLower

/-- Python `str.strip()` (no argument: strips whitespace from both ends). -/
def pyStrip (s : List Char) : List Char :=
  ((s.dropWhile pyIsSpace).reverse.dropWhile pyIsSpace).reverse

/-- Worker for `pySplit`: `acc` holds the current word, reversed. -/
def splitWsAux : List Char → List Char → List (List Char)
  | [], acc => if acc = [] then [] else [acc.reverse]
  | c :: cs, acc =>
    if pyIsSpace c then
      if acc = [] then splitWsAux cs [] else acc.reverse :: splitWsAux cs []
    else splitWsAux cs (c :: acc)

/-- Python `str.split()` (no argument: split on whitespace runs, drop empties). -/
def pySplit (s : List Char) : List (List Char) := splitWsAux s []

/-- Python `" ".join(words)`. -/
def joinSpace : List (List Char) → List Char
  | [] => []
  | [w] => w
  | w :: ws => w ++ ' ' :: joinSpace ws

/-- `app.py` `normalize`: `" ".join(text.lower().strip().split())`. -/
def normalize (text : List Char) : List Char :=
  joinSpace (pySplit (pyStrip (pyLowerL text)))

/-- Python substring test `needle in hay` (prefix worker). -/
def isPrefixL : List Char → List Char → Bool
  | [], _ => true
  | _ :: _, [] => false
  | c :: cs, d :: ds => (c == d) && isPrefixL cs ds

/-- Python substring test `needle in hay`. -/
def containsSub (needle : List Char) : List Char → Bool
  | [] => needle.isEmpty
  | c :: cs => isPrefixL needle (c :: cs) || containsSub needle cs

/-! ## `difflib.SequenceMatcher` (isjunk = None, autojunk = True)

The embedding mirrors CPython's `difflib.py`.  Since `isjunk` is `None`,
the junk set `bjunk` is empty, so the two junk-extension loops of
`find_longest_match` never run and are omitted; `bpopular` (the autojunk
set) is modelled inside `b2j`. -/

/-- Indices (ascending) at which character `c` occurs in `b` —
the occurrence list stored in CPython's `b2j` before autojunk. -/
def indicesOf (b : List Char) (c : Char) : List Nat :=
  (List.range b.length).filter (fun j => b.get? j == some c)

/-- CPython autojunk: with `isjunk = None` and `autojunk = True`, an element
is *popular* (and dropped from `b2j`) when `len(b) >= 200` and it occurs
more than `len(b) // 100 + 1` times. -/
def isPopular (b : List Char) (c : Char) : Bool :=
  decide (200 ≤ b.length) && decide (b.length / 100 + 1 < (indicesOf b c).length)

/-- `b2j.get(c, [])` after `__chain_b`. -/
def b2j (b : List Char) (c : Char) : List Nat :=
  if isPopular b c then [] else indicesOf b c

/-- `a[i]` for an index that is always in range at call sites. -/
def chAt (a : List Char) (i : Nat) : Char := a.getD i ' '

/-- Equality of two optional characters; `false` when either is absent
(both lookups are in range whenever this is reached). -/
def optCharEq : Option Char → Option Char → Bool
  | some x, some y => x == y
  | _, _ => false

/-- The running `besti, bestj, bestsize` triple of `find_longest_match`. -/
structure Best where
  i : Nat
  j : Nat
  size : Nat
deriving DecidableEq, Repr

/-- Inner loop of `find_longest_match` over the occurrence list of `a[i]`:
`j < blo` is `continue`, `bhi <= j` is `break`; `prev` is the previous row's
`j2len`, `cur` the row being built (`newj2len`). -/
def innerLoop (blo bhi i : Nat) (prev : Nat → Nat) :
    List Nat → (Nat → Nat) → Best → ((Nat → Nat) × Best)
  | [], cur, best => (cur, best)
  | j :: js, cur, best =>
    if j < blo then innerLoop blo bhi i prev js cur best
    else if bhi ≤ j then (cur, best)
    else
      let k := (if j = 0 then 0 else prev (j - 1)) + 1
      let cur' := fun x => if x = j then k else cur x
      let best' : Best := if best.size < k then ⟨i + 1 - k, j + 1 - k, k⟩ else best
      innerLoop blo bhi i prev js cur' best'

/-- Outer loop of `find_longest_match` over the rows `i ∈ [alo, ahi)`. -/
def rowLoop (a b : List Char) (blo bhi : Nat) :
    List Nat → (Nat → Nat) → Best → Best
  | [], _, best => best
  | i :: is_, prev, best =>
    let p := innerLoop blo bhi i prev (b2j b (chAt a i)) (fun _ => 0) best
    rowLoop a b blo bhi is_ p.1 p.2

/-- First extension loop of `find_longest_match` (extend backwards over
equal, non-junk characters; `bjunk` is empty here). Arguments after `blo`
are `besti bestj bestsize`. -/
def extendBack (a b : List Char) (alo blo : Nat) : Nat → Nat → Nat → Best
  | 0, bj, bs => ⟨0, bj, bs⟩
  | bi + 1, bj, bs =>
    if alo < bi + 1 ∧ blo < bj ∧ optCharEq (a.get? bi) (b.get? (bj - 1)) = true then
      extendBack a b alo blo bi (bj - 1) (bs + 1)
    else ⟨bi + 1, bj, bs⟩

/-- Second extension loop (extend forwards over equal characters). The
`fuel` argument only bounds the iteration count; it is always called with
fuel at least `ahi`, which the guard `bi + bs < ahi` keeps sufficient. -/
def extendFwd (a b : List Char) (ahi bhi bi bj : Nat) : Nat → Nat → Nat
  | 0, bs => bs
  | fuel + 1, bs =>
    if bi + bs < ahi ∧ bj + bs < bhi ∧ optCharEq (a.get? (bi + bs)) (b.get? (bj + bs)) = true then
      extendFwd a b ahi bhi bi bj fuel (bs + 1)
    else bs

/-- `find_longest_match(alo, ahi, blo, bhi)` for `SequenceMatcher(None, a, b)`.
The final two junk-extension loops of CPython are no-ops (empty `bjunk`). -/
def flm (a b : List Char) (alo ahi blo bhi : Nat) : Best :=
  let m := rowLoop a b blo bhi (List.range' alo (ahi - alo)) (fun _ => 0) ⟨alo, blo, 0⟩
  let m' := extendBack a b alo blo m.i m.j m.size
  ⟨m'.i, m'.j, extendFwd a b ahi bhi m'.i m'.j (ahi + 1) m'.size⟩

/-- The mathematical value of the `j2len` dynamic program of
`find_longest_match` on the full ranges: the length of the streak of
matching, non-junked positions ending at `(i, j)`.  Used only in proofs. -/
def streak (a b : List Char) : Nat → Nat → Nat
  | 0, j => if j ∈ b2j b (chAt a 0) then 1 else 0
  | i + 1, j =>
    if j ∈ b2j b (chAt a (i + 1)) then
      (match j with | 0 => 0 | j' + 1 => streak a b i j') + 1
    else 0

/-- The `j2len` row that `rowLoop` threads into row `i` (all zeros before
the first row).  Used only in proofs. -/
def streakRow (a b : List Char) : Nat → Nat → Nat
  | 0 => fun _ => 0
  | i + 1 => streak a b i

/-- Total size of the matching blocks produced by `get_matching_blocks`'s
recursive decomposition (the queue order does not affect the sum, and the
final merge step preserves it).  `fuel` bounds the recursion depth; the
top-level call passes `a.length + 1`, which is sufficient because each
recursive call strictly shrinks the `a`-range. -/
def matchesSum (a b : List Char) : Nat → Nat → Nat → Nat → Nat → Nat
  | 0, _, _, _, _ => 0
  | fuel + 1, alo, ahi, blo, bhi =>
    let m := flm a b alo ahi blo bhi
    if m.size = 0 then 0
    else
      m.size
        + (if alo < m.i ∧ blo < m.j then matchesSum a b fuel alo m.i blo m.j else 0)
        + (if m.i + m.size < ahi ∧ m.j + m.size < bhi then
            matchesSum a b fuel (m.i + m.size) ahi (m.j + m.size) bhi else 0)

/-- `SequenceMatcher(None, a, b).ratio()`:
`2.0 * M / T` where `M` is the total matched size and `T = len(a) + len(b)`;
`1.0` when `T = 0`. -/
def ratioVal (a b : List Char) : ℚ :=
  let m := matchesSum a b (a.length + 1) 0 a.length 0 b.length
  if a.length + b.length = 0 then 1
  else mkRat (2 * (m : Int)) (a.length + b.length)

/-! ## Scorer and matcher (`app.py` lines 75-108), over well-formed entries -/

/-- `MATCH_THRESHOLD = 0.45`. -/
def MATCH_THRESHOLD : ℚ := mkRat 9 20

/-- `score_match`: `difflib.SequenceMatcher(None, normalize(query), normalize(text)).ratio()`. -/
def score_match (query text : List Char) : ℚ :=
  ratioVal (normalize query) (normalize text)

/-- One knowledge-base record with the shape produced by `/add` and the default KB. -/
structure Entry where
  question : List Char
  answer : List Char
  tags : List (List Char)
deriving DecidableEq, Repr

/-- `s_t`: `max((score_match(query_n, t) for t in tags), default=0.0)` guarded by
`if item.get("tags"):` — `0.0` when the tag list is empty. -/
def tagScore (query_n : List Char) (tags : List (List Char)) : ℚ :=
  match tags.map (fun t => score_match query_n t) with
  | [] => 0
  | x :: xs => xs.foldl qMax x

/-- The combined score `max(s_q * 1.2, s_a * 0.9, s_t * 1.0)` computed for
one entry in the loop of `find_best_answer`. -/
def combinedScore (query_n : List Char) (e : Entry) : ℚ :=
  let s_q := score_match query_n e.question
  let s_a := score_match query_n e.answer
  let s_t := tagScore query_n e.tags
  qMax (qMax (qMul s_q (mkRat 6 5)) (qMul s_a (mkRat 9 10))) (qMul s_t 1)

/-- The `for item in kb` loop of `find_best_answer`: replace the running
best only on a strictly greater combined score. -/
def bestLoop (query_n : List Char) : List Entry → (Option Entry × ℚ) → (Option Entry × ℚ)
  | [], acc => acc
  | item :: rest, acc =>
    let combined := combinedScore query_n item
    bestLoop query_n rest (if acc.2 < combined then (some item, combined) else acc)

/-- The keyword-containment test of the fallback loop:
`any(word for word in query_n.split() if word and word in qn)`. -/
def kwHit (query_n : List Char) (item : Entry) : Bool :=
  let qn := normalize item.question
  (pySplit query_n).any (fun word => (!word.isEmpty) && containsSub word qn)

/-- `find_best_answer(kb, query)` over well-formed entries. -/
def find_best_answer (kb : List Entry) (query : List Char) : Option Entry × ℚ :=
  let query_n := normalize query
  let p := bestLoop query_n kb (none, 0)
  if MATCH_THRESHOLD ≤ p.2 then p
  else
    match kb.find? (kwHit query_n) with
    | some item => (some item, 0)
    | none => (none, p.2)

/-- The greatest combined score over the store (0 on an empty store) —
the value `best_score` holds when the loop of `find_best_answer` ends. -/
def bestScore (kb : List Entry) (query : List Char) : ℚ :=
  (kb.map (combinedScore (normalize query))).foldl qMax 0

/-! ## JSON values, the persisted file, and the store (`app.py` lines 14-72)

The in-memory `KB` is whatever `json.load` returned, so it is modelled as a
list of JSON values; `/add` and the default KB only ever put well-formed
objects in it.  JSON numbers are modelled as integers (no stored data uses
fractional numbers). The `json` module's text serialisation is modelled at
the value level: saving stores the JSON value of the list, loading reads it
back. -/

inductive JVal where
  | str (s : List Char)
  | num (n : Int)
  | bool (b : Bool)
  | null
  | arr (elems : List JVal)
  | obj (fields : List (List Char × JVal))

/-- Exceptions the Python code can raise on malformed store elements. -/
inductive PyErr where
  | keyError (key : List Char)
  | typeError (msg : List Char)
  | attributeError (msg : List Char)
deriving DecidableEq, Repr

/-- The JSON object `{"question": ..., "answer": ..., "tags": [...]}` built
by `/add` and by the default knowledge base. -/
def encodeEntry (e : Entry) : JVal :=
  .obj [(str "question", .str e.question), (str "answer", .str e.answer),
        (str "tags", .arr (e.tags.map JVal.str))]

/-- A store of well-formed entries as the JSON list the program keeps in `KB`. -/
def encodeKB (es : List Entry) : List JVal := es.map encodeEntry

/-- The eight entries of `DEFAULT_KB` (`app.py` lines 14-55). -/
def defaultEntries : List Entry := [
  ⟨str "What is Python used for?",
   str "Python is a versatile programming language used for web development, data science, scripting, automation, and more. Popular libraries: requests, Flask/FastAPI, pandas, numpy, scikit-learn, PyTorch.",
   [str "python", str "language", str "general"]⟩,
  ⟨str "How do I start learning machine learning?",
   str "Start with Python basics, statistics, and linear algebra. Learn pandas/numpy for data handling, then study supervised learning (linear/logistic regression, decision trees). Use scikit-learn for experiments and follow with deep learning frameworks like PyTorch or TensorFlow.",
   [str "ml", str "machine learning", str "learning path", str "data science"]⟩,
  ⟨str "What is version control / Git?",
   str "Git is a distributed version control system for tracking changes in source code. Typical workflow: clone, create branches, commit, push, open pull requests, and merge. Platforms: GitHub, GitLab, Bitbucket.",
   [str "git", str "version control", str "vcs"]⟩,
  ⟨str "What is Docker and why use it?",
   str "Docker packages applications into lightweight containers for consistent environments across development and production. Use it to isolate dependencies and simplify deployment.",
   [str "docker", str "containers", str "devops"]⟩,
  ⟨str "How do I evaluate a model?",
   str "Choose metrics suitable for the problem: accuracy/precision/recall/F1 for classification, RMSE/MAE for regression. Use cross-validation to estimate generalization and inspect learning curves and confusion matrices.",
   [str "model evaluation", str "metrics", str "ml"]⟩,
  ⟨str "When should I use SQL vs NoSQL?",
   str "Use SQL (relational DBs) for structured data with strong consistency and ACID requirements. Use NoSQL for flexible schemas, high throughput, or hierarchical/document data (e.g., MongoDB). Consider use-case and scaling needs.",
   [str "sql", str "database", str "nosql"]⟩,
  ⟨str "What are REST APIs?",
   str "REST (Representational State Transfer) is an architectural style for networked applications using HTTP verbs (GET/POST/PUT/DELETE). Design resources with clear URLs, use status codes, and consider authentication and pagination.",
   [str "rest", str "api", str "web"]⟩,
  ⟨str "How to test my code?",
   str "Write unit tests for functions, integration tests for components, and use test automation. In Python, use pytest or unittest. Run tests in CI and aim for clear, deterministic tests.",
   [str "testing", str "ci", str "pytest"]⟩]

/-- `DEFAULT_KB` as the JSON list the program works with. -/
def DEFAULT_KB : List JVal := encodeKB defaultEntries

/-- The state of the persisted file `kb.json` as `load_kb` can encounter it. -/
inductive FileState where
  | absent
  | unreadable
  | malformed
  | content (v : JVal)

/-- `load_kb`: parsed list returned verbatim; every failure (absent file,
unreadable file, parse error, non-list top level) silently yields
`DEFAULT_KB.copy()`. -/
def load_kb : FileState → List JVal
  | .content (.arr l) => l
  | .content _ => DEFAULT_KB
  | _ => DEFAULT_KB

/-- `save_kb`: `json.dump(kb, f)` — the file now holds the JSON array. -/
def save_kb (kb : List JVal) : FileState := .content (.arr kb)

/-! ## Python dynamic-typing primitives needed by the store code -/

/-- Association-list lookup for JSON object fields. -/
def lookupField : List (List Char × JVal) → List Char → Option JVal
  | [], _ => none
  | (k, v) :: rest, key => if k = key then some v else lookupField rest key

/-- `item[key]`: `KeyError` on a missing key, `TypeError` on a non-dict. -/
def jGet (v : JVal) (key : List Char) : Except PyErr JVal :=
  match v with
  | .obj fields =>
    match lookupField fields key with
    | some x => .ok x
    | none => .error (.keyError key)
  | _ => .error (.typeError (str "object is not subscriptable"))

/-- `item.get(key, default)`: `AttributeError` on a non-dict. -/
def jGetDefault (v : JVal) (key : List Char) (dflt : JVal) : Except PyErr JVal :=
  match v with
  | .obj fields => .ok ((lookupField fields key).getD dflt)
  | _ => .error (.attributeError (str "object has no attribute get"))

/-- `item.get(key)` with no default: `None` (here `none`) on a missing key. -/
def jGetOpt (v : JVal) (key : List Char) : Except PyErr (Option JVal) :=
  match v with
  | .obj fields => .ok (lookupField fields key)
  | _ => .error (.attributeError (str "object has no attribute get"))

/-- A value used where a `str` is required (`.lower()` inside `normalize`):
`AttributeError` on anything else. -/
def asStr : JVal → Except PyErr (List Char)
  | .str s => .ok s
  | _ => .error (.attributeError (str "object has no attribute lower"))

/-- Python truthiness of a JSON value. -/
def pyTruthy : JVal → Bool
  | .str s => !s.isEmpty
  | .num n => n != 0
  | .bool b => b
  | .null => false
  | .arr l => !l.isEmpty
  | .obj f => !f.isEmpty

/-- `for t in v`: lists yield elements, strings their characters, dicts
their keys; other values raise `TypeError`. -/
def pyIter : JVal → Except PyErr (List JVal)
  | .arr l => .ok l
  | .str s => .ok (s.map (fun c => JVal.str [c]))
  | .obj f => .ok (f.map (fun kv => JVal.str kv.1))
  | _ => .error (.typeError (str "object is not iterable"))

/-- `str(v)` as used in f-strings. Container display is abbreviated; the
program only ever formats string questions this way. -/
def pyStr : JVal → List Char
  | .str s => s
  | .num n => str (toString n)
  | .bool b => if b then str "True" else str "False"
  | .null => str "None"
  | .arr _ => str "[...]"
  | .obj _ => str "\x7b...\x7d"

/-! ## `find_best_answer` over raw store elements (dynamic typing modelled) -/

/-- The body of the scoring loop for one raw store element: the unguarded
`item["question"]` / `item["answer"]` subscripts and the guarded
`item.get("tags")`, then the combined score. -/
def entryScoreJ (query_n : List Char) (item : JVal) : Except PyErr ℚ := do
  let qv ← jGet item (str "question")
  let qs ← asStr qv
  let s_q := score_match query_n qs
  let av ← jGet item (str "answer")
  let as_ ← asStr av
  let s_a := score_match query_n as_
  let tv ← jGetOpt item (str "tags")
  let s_t ←
    match tv with
    | some tval =>
      if pyTruthy tval then do
        let ts ← pyIter tval
        let scores ← ts.mapM (fun t => do
          let s ← asStr t
          pure (score_match query_n s))
        pure (match scores with | [] => (0 : ℚ) | x :: xs => xs.foldl qMax x)
      else pure (0 : ℚ)
    | none => pure (0 : ℚ)
  pure (qMax (qMax (qMul s_q (mkRat 6 5)) (qMul s_a (mkRat 9 10))) (qMul s_t 1))

/-- The scoring loop of `find_best_answer` over raw store elements. -/
def bestLoopJ (query_n : List Char) : List JVal → (Option JVal × ℚ) →
    Except PyErr (Option JVal × ℚ)
  | [], acc => .ok acc
  | item :: rest, acc => do
    let combined ← entryScoreJ query_n item
    bestLoopJ query_n rest (if acc.2 < combined then (some item, combined) else acc)

/-- The keyword-containment fallback loop over raw store elements. -/
def fallbackJ (query_n : List Char) : List JVal → Except PyErr (Option JVal)
  | [] => .ok none
  | item :: rest => do
    let qv ← jGet item (str "question")
    let qs ← asStr qv
    let qn := normalize qs
    if (pySplit query_n).any (fun word => (!word.isEmpty) && containsSub word qn) then
      pure (some item)
    else fallbackJ query_n rest

/-- `find_best_answer(kb, query)` on the raw store, with Python's dynamic
failures made explicit. -/
def find_best_answerJ (kb : List JVal) (query : List Char) :
    Except PyErr (Option JVal × ℚ) := do
  let query_n := normalize query
  let p ← bestLoopJ query_n kb (none, 0)
  if MATCH_THRESHOLD ≤ p.2 then pure p
  else
    match ← fallbackJ query_n kb with
    | some item => pure (some item, 0)
    | none => pure (none, p.2)

/-! ## Rendering (`format_wrapped`, score formatting) -/

/-- Break one overlong word into chunks of at most `w` characters
(`break_long_words=True`); the fuel is `x.length + 1`, always sufficient. -/
def breakChunks (w : Nat) : Nat → List Char → List (List Char)
  | 0, _ => []
  | _, [] => []
  | fuel + 1, x => if x.length ≤ w then [x] else x.take w :: breakChunks w fuel (x.drop w)

/-- Greedy line filling at width `w` (model of `textwrap`'s fill; hyphen
handling is not modelled — no claim depends on line breaking). -/
def packLines (w : Nat) : List (List Char) → List Char → List (List Char)
  | [], cur => if cur.isEmpty then [] else [cur]
  | x :: xs, cur =>
    if cur.isEmpty then packLines w xs x
    else if cur.length + 1 + x.length ≤ w then packLines w xs (cur ++ ' ' :: x)
    else cur :: packLines w xs x

/-- `textwrap.TextWrapper(width=w).wrap(text)` (greedy model). -/
def wrapText (w : Nat) (text : List Char) : List (List Char) :=
  packLines w ((pySplit text).flatMap (fun x => breakChunks w (x.length + 1) x)) []

/-- `"\n".join(lines)`. -/
def joinNL : List (List Char) → List Char
  | [] => []
  | [l] => l
  | l :: ls => l ++ '\n' :: joinNL ls

/-- `", ".join(parts)`. -/
def joinCommaSpace : List (List Char) → List Char
  | [] => []
  | [l] => l
  | l :: ls => l ++ ',' :: ' ' :: joinCommaSpace ls

/-- `format_wrapped(text, indent, width)` (`app.py` lines 111-117). -/
def format_wrapped (text : List Char) (indent width : Nat) : List Char :=
  joinNL ((wrapText (width - indent) text).map
    (fun line => List.replicate indent ' ' ++ line))

/-- Round a rational to the nearest integer, ties to even — the rounding of
Python's `format(x, '.2f')`, modelled at rational precision. -/
def roundHalfEven (x : ℚ) : Int :=
  let n := x.num
  let d : Int := x.den
  let fl := Int.fdiv n d
  let rem := n - fl * d
  if 2 * rem < d then fl
  else if d < 2 * rem then fl + 1
  else if fl % 2 = 0 then fl else fl + 1

/-- `f"{score:.2f}"` (two decimal places). -/
def fmt2 (q : ℚ) : List Char :=
  let cents := roundHalfEven (qMul q (mkRat 100 1))
  let m := cents.natAbs
  (if cents < 0 then str "-" else []) ++ (Nat.repr (m / 100)).data ++ str "." ++
    (if m % 100 < 10 then str "0" else []) ++ (Nat.repr (m % 100)).data

/-- The weak-match annotation `f"\n\n(matched: \"{q}\" score={score:.2f})"`. -/
def metaLine (q : List Char) (score : ℚ) : List Char :=
  str "\n\n(matched: \"" ++ q ++ str "\" score=" ++ fmt2 score ++ str ")"

/-! ## The message handler (`app.py` lines 124-208) -/

/-- Application state: the module-level `KB` plus the persisted file. -/
structure AppState where
  kb : List JVal
  file : FileState

/-- `user_text.split(" ", 1)`: split on the first space character only. -/
def splitFirstSpace : List Char → List Char × Option (List Char)
  | [] => ([], none)
  | c :: cs =>
    if c = ' ' then ([], some cs)
    else
      let p := splitFirstSpace cs
      (c :: p.1, p.2)

/-- Python `s.split(sep)` for a one-character separator (keeps empty parts). -/
def pySplitOnChar (sep : Char) : List Char → List (List Char)
  | [] => [[]]
  | c :: cs =>
    if c = sep then [] :: pySplitOnChar sep cs
    else
      match pySplitOnChar sep cs with
      | w :: ws => (c :: w) :: ws
      | [] => [[c]]

/-- The `/help` text. -/
def helpText : List Char :=
  str "Commands:\n  /help                       Show this help\n  /add Q|A|tag1,tag2          Add new Q/A (use \x27|\x27 to separate question, answer, tags)\n  /list                       List stored Q/A entries\n  /save                       Save knowledge base to disk (kb.json)\n  /load                       Load knowledge base from disk (overwrites current)\n\nExample for /add:\n/add What is pytest?|A testing framework for Python.|testing,pytest\n"

/-- The `/list` loop: `", ".join(item.get("tags", []))` then the f-string
with the unguarded `item['question']`; `i` is the 1-based index. -/
def listLines : Nat → List JVal → Except PyErr (List (List Char))
  | _, [] => .ok []
  | i, item :: rest => do
    let tv ← jGetDefault item (str "tags") (JVal.arr [])
    let elems ← pyIter tv
    let tagStrs ← elems.mapM asStr
    let tags := joinCommaSpace tagStrs
    let qv ← jGet item (str "question")
    let line := (Nat.repr i).data ++ str ". " ++ pyStr qv ++ str " (tags: " ++ tags ++ str ")"
    let others ← listLines (i + 1) rest
    .ok (line :: others)

/-- `handle_message` (the `@cl.on_message` handler): one inbound message to
one outbound reply, possibly mutating the state. A `.error` result is an
uncaught Python exception (no reply is produced). The `try/except` around
`/save` is modelled as always succeeding (file-system failures are outside
the model). -/
def handle_message (st : AppState) (message : List Char) :
    Except PyErr (AppState × List Char) :=
  let user_text := pyStrip message
  if user_text.isEmpty then .ok (st, str "(empty message)")
  else if user_text.head? = some '/' then
    let p := splitFirstSpace user_text
    let arg := pyStrip (p.2.getD [])
    let cmd := pyLowerL p.1
    if cmd = str "/help" then .ok (st, helpText)
    else if cmd = str "/list" then
      if st.kb.isEmpty then .ok (st, str "Knowledge base is empty.")
      else do
        let lines ← listLines 1 st.kb
        .ok (st, joinNL lines)
    else if cmd = str "/add" then
      if arg.isEmpty then .ok (st, str "Usage: /add Question|Answer|tag1,tag2")
      else
        let parts := (pySplitOnChar '|' arg).map pyStrip
        if parts.length < 2 then
          .ok (st, str "Please provide at least Question and Answer separated by \x27|\x27.")
        else
          let q := parts.getD 0 []
          let a := parts.getD 1 []
          let tags :=
            if 3 ≤ parts.length ∧ ¬(parts.getD 2 []).isEmpty then
              ((pySplitOnChar ',' (parts.getD 2 [])).map pyStrip).filter (fun t => !t.isEmpty)
            else []
          .ok ({ st with kb := st.kb ++ [encodeEntry ⟨q, a, tags⟩] }, str "Added to knowledge base.")
    else if cmd = str "/save" then
      .ok ({ st with file := save_kb st.kb }, str "Saved KB to kb.json.")
    else if cmd = str "/load" then
      .ok ({ st with kb := load_kb st.file }, str "Knowledge base loaded.")
    else .ok (st, str "Unknown command. Type /help for available commands.")
  else do
    let r ← find_best_answerJ st.kb user_text
    match r with
    | (item, score) =>
      match item with
      | some v =>
        if pyTruthy v then do
          let av ← jGet v (str "answer")
          let as_ ← asStr av
          let answer := format_wrapped as_ 2 80
          let qv ← jGet v (str "question")
          let meta := if score ≠ 0 ∧ score < mkRat 3 5 then metaLine (pyStr qv) score else []
          .ok (st, str "Bot:\n" ++ answer ++ meta)
        else .ok (st, str "Bot: I don\x27t have a good answer for that. You can add it with /add.")
      | none => .ok (st, str "Bot: I don\x27t have a good answer for that. You can add it with /add.")

/-- Range discipline of a `find_longest_match` candidate (proof infrastructure). -/
def BestInBounds (alo ahi blo bhi : Nat) (m : Best) : Prop :=
  alo ≤ m.i ∧ blo ≤ m.j ∧ m.i + m.size ≤ ahi ∧ m.j + m.size ≤ bhi

/-- Range discipline of a `j2len` row whose values are at most `bound - alo`
(proof infrastructure). -/
def RowBounded (alo blo bound : Nat) (f : Nat → Nat) : Prop :=
  ∀ j, f j + alo ≤ bound ∧ (f j = 0 ∨ f j + blo ≤ j + 1)

/-! ## Basic lemmas about the rational helpers -/

theorem qMul_eq (a b : ℚ) : qMul a b = a * b := by
  rw [qMul, Rat.mkRat_eq_divInt, Rat.divInt_eq_div]
  push_cast
  conv_rhs => rw [← Rat.num_div_den a, ← Rat.num_div_den b]
  rw [div_mul_div_comm]

theorem qMax_eq (a b : ℚ) : qMax a b = max a b := by
  by_cases h : a < b
  · rw [qMax, if_pos h, max_eq_right h.le]
  · rw [qMax, if_neg h, max_eq_left (le_of_not_lt h)]

theorem MATCH_THRESHOLD_eq : MATCH_THRESHOLD = 9 / 20 := by
  rw [MATCH_THRESHOLD, Rat.mkRat_eq_divInt, Rat.divInt_eq_div]
  norm_num

/-! ## C5: save/load round trip -/

theorem encodeEntry_injective : Function.Injective encodeEntry := by
  intro e e' h
  simp only [encodeEntry, JVal.obj.injEq, List.cons.injEq, Prod.mk.injEq, JVal.str.injEq,
    JVal.arr.injEq, and_true, true_and] at h
  obtain ⟨hq, ha, ht⟩ := h
  cases e; cases e'
  simp only [Entry.mk.injEq]
  refine ⟨hq, ha, ?_⟩
  exact List.map_injective_iff.mpr (fun x y hxy => JVal.str.inj hxy) ht

/-- Claim C5: saving a store (a sequence of entries with string question,
string answer and string-list tags) and then loading yields an equal
ordered sequence of entries: loading after saving returns the stored JSON
list verbatim, and the entry encoding is injective, so equal encoded
stores are equal entry sequences (same fields, same order). -/
theorem C5_round_trip :
    (∀ kb : List JVal, load_kb (save_kb kb) = kb) ∧
    (∀ es : List Entry, load_kb (save_kb (encodeKB es)) = encodeKB es) ∧
    (∀ es es' : List Entry, encodeKB es = encodeKB es' → es = es') := by
  refine ⟨fun kb => rfl, fun es => rfl, fun es es' h => ?_⟩
  exact List.map_injective_iff.mpr encodeEntry_injective h

theorem C5_round_trip_witness :
    load_kb (save_kb (encodeKB defaultEntries)) = encodeKB defaultEntries ∧
    encodeKB [(⟨str "a", str "b", []⟩ : Entry)] = encodeKB [⟨str "a", str "b", []⟩] ∧
    ([(⟨str "a", str "b", []⟩ : Entry)] = [⟨str "a", str "b", []⟩]) :=
  ⟨C5_round_trip.2.1 defaultEntries, rfl, C5_round_trip.2.2 _ _ rfl⟩

/-! ## C6: every load failure silently yields the default knowledge base -/

/-- Claim C6: when the persisted file is absent, unreadable, fails to
parse, or parses to a non-array top level, `load_kb` returns the default
knowledge base of 8 entries, surfacing no error. -/
theorem C6_load_failure_defaults :
    load_kb .absent = DEFAULT_KB ∧
    load_kb .unreadable = DEFAULT_KB ∧
    load_kb .malformed = DEFAULT_KB ∧
    (∀ v : JVal, (∀ l, v ≠ .arr l) → load_kb (.content v) = DEFAULT_KB) ∧
    DEFAULT_KB.length = 8 := by
  refine ⟨rfl, rfl, rfl, fun v h => ?_, rfl⟩
  cases v <;> first | rfl | exact absurd rfl (h _)

theorem C6_load_failure_defaults_witness :
    (∀ l, JVal.null ≠ JVal.arr l) ∧ load_kb (.content .null) = DEFAULT_KB :=
  ⟨fun _ h => JVal.noConfusion h,
   C6_load_failure_defaults.2.2.2.1 .null (fun _ h => JVal.noConfusion h)⟩

/-! ## C10: no per-element validation on load; raw elements crash retrieval -/

/-- Claim C10: `load_kb` returns any parsed JSON array verbatim with no
per-element validation; a store can therefore contain an element without a
`question` field, and on such a store the unguarded `item["question"]`
subscript makes both the query path of `find_best_answer` and `/list`
raise `KeyError` instead of producing a reply. -/
theorem C10_no_validation :
    (∀ l : List JVal, load_kb (.content (.arr l)) = l) ∧
    lookupField [(str "answer", JVal.str (str "x"))] (str "question") = none ∧
    find_best_answerJ [JVal.obj [(str "answer", JVal.str (str "x"))]] (str "hi")
      = .error (.keyError (str "question")) ∧
    handle_message ⟨[JVal.obj [(str "answer", JVal.str (str "x"))]], .absent⟩ (str "hi")
      = .error (.keyError (str "question")) ∧
    handle_message ⟨[JVal.obj [(str "answer", JVal.str (str "x"))]], .absent⟩ (str "/list")
      = .error (.keyError (str "question")) :=
  ⟨fun _ => rfl, rfl, rfl, rfl, rfl⟩

/-! ## C8: `normalize` is idempotent -/

theorem pyToLower_toNat_of_upper (c : Char) (h : 65 ≤ c.toNat ∧ c.toNat ≤ 90) :
    (pyToLower c).toNat = c.toNat + 32 := by
  rw [pyToLower, if_pos h]
  unfold Char.ofNat
  rw [dif_pos (Or.inl (by omega))]
  rfl

theorem pyToLower_idem (c : Char) : pyToLower (pyToLower c) = pyToLower c := by
  by_cases h : 65 ≤ c.toNat ∧ c.toNat ≤ 90
  · have h2 := pyToLower_toNat_of_upper c h
    rw [pyToLower]
    rw [if_neg (by omega)]
  · have hfix : pyToLower c = c := by rw [pyToLower, if_neg h]
    rw [hfix]
    exact hfix

theorem pyStrip_subset (s : List Char) : pyStrip s ⊆ s := by
  intro x hx
  rw [pyStrip, List.mem_reverse] at hx
  have h1 : x ∈ (List.dropWhile pyIsSpace s).reverse :=
    (List.dropWhile_sublist pyIsSpace).subset hx
  rw [List.mem_reverse] at h1
  exact (List.dropWhile_sublist pyIsSpace).subset h1

theorem pyToLower_space : pyToLower ' ' = ' ' := rfl

/-- Characters of any word produced by `splitWsAux` come from the input or
the accumulator. -/
theorem splitWsAux_chars :
    ∀ (s acc : List Char) (w : List Char), w ∈ splitWsAux s acc →
      ∀ c ∈ w, c ∈ s ∨ c ∈ acc := by
  intro s
  induction s with
  | nil =>
    intro acc w hw c hc
    rw [splitWsAux] at hw
    by_cases h : acc = []
    · rw [if_pos h] at hw; exact absurd hw (List.not_mem_nil w)
    · rw [if_neg h] at hw
      rcases List.mem_singleton.mp hw with rfl
      exact Or.inr (List.mem_reverse.mp hc)
  | cons d s ih =>
    intro acc w hw c hc
    rw [splitWsAux] at hw
    by_cases hd : pyIsSpace d = true
    · rw [if_pos hd] at hw
      by_cases h : acc = []
      · rw [if_pos h] at hw
        rcases ih [] w hw c hc with h' | h'
        · exact Or.inl (List.mem_cons_of_mem d h')
        · exact absurd h' (List.not_mem_nil c)
      · rw [if_neg h] at hw
        rcases List.mem_cons.mp hw with rfl | hw'
        · exact Or.inr (List.mem_reverse.mp hc)
        · rcases ih [] w hw' c hc with h' | h'
          · exact Or.inl (List.mem_cons_of_mem d h')
          · exact absurd h' (List.not_mem_nil c)
    · rw [if_neg hd] at hw
      rcases ih (d :: acc) w hw c hc with h' | h'
      · exact Or.inl (List.mem_cons_of_mem d h')
      · rcases List.mem_cons.mp h' with rfl | h''
        · exact Or.inl (List.mem_cons_self c s)
        · exact Or.inr h''

/-- Words produced by `splitWsAux` (from a whitespace-free accumulator) are
non-empty and whitespace-free. -/
theorem splitWsAux_words :
    ∀ (s acc : List Char), (∀ c ∈ acc, pyIsSpace c = false) →
      ∀ w ∈ splitWsAux s acc, w ≠ [] ∧ ∀ c ∈ w, pyIsSpace c = false := by
  intro s
  induction s with
  | nil =>
    intro acc hacc w hw
    rw [splitWsAux] at hw
    by_cases h : acc = []
    · rw [if_pos h] at hw; exact absurd hw (List.not_mem_nil w)
    · rw [if_neg h] at hw
      rcases List.mem_singleton.mp hw with rfl
      refine ⟨fun h' => h (by simpa using congrArg List.reverse h'), fun c hc => ?_⟩
      exact hacc c (List.mem_reverse.mp hc)
  | cons d s ih =>
    intro acc hacc w hw
    rw [splitWsAux] at hw
    by_cases hd : pyIsSpace d = true
    · rw [if_pos hd] at hw
      by_cases h : acc = []
      · rw [if_pos h] at hw
        exact ih [] (fun c hc => absurd hc (List.not_mem_nil c)) w hw
      · rw [if_neg h] at hw
        rcases List.mem_cons.mp hw with rfl | hw'
        · refine ⟨fun h' => h (by simpa using congrArg List.reverse h'), fun c hc => ?_⟩
          exact hacc c (List.mem_reverse.mp hc)
        · exact ih [] (fun c hc => absurd hc (List.not_mem_nil c)) w hw'
    · rw [if_neg hd] at hw
      refine ih (d :: acc) (fun c hc => ?_) w hw
      rcases List.mem_cons.mp hc with rfl | hc'
      · exact eq_false_of_ne_true hd
      · exact hacc c hc'

/-- A whitespace-free prefix is consumed into the accumulator. -/
theorem splitWsAux_consume_word :
    ∀ (w t acc : List Char), (∀ c ∈ w, pyIsSpace c = false) →
      splitWsAux (w ++ t) acc = splitWsAux t (w.reverse ++ acc) := by
  intro w
  induction w with
  | nil => intro t acc _; simp
  | cons c w' ih =>
    intro t acc hw
    have hc : pyIsSpace c = false := hw c (List.mem_cons_self c w')
    rw [List.cons_append, splitWsAux, if_neg (by rw [hc]; simp)]
    rw [ih t (c :: acc) (fun x hx => hw x (List.mem_cons_of_mem c hx))]
    simp

/-- Splitting the space-join of non-empty whitespace-free words recovers
the words. -/
theorem pySplit_joinSpace :
    ∀ ws : List (List Char),
      (∀ w ∈ ws, w ≠ [] ∧ ∀ c ∈ w, pyIsSpace c = false) →
      pySplit (joinSpace ws) = ws := by
  intro ws
  induction ws with
  | nil => intro _; rfl
  | cons w ws' ih =>
    intro hws
    obtain ⟨hw, hwc⟩ := hws w (List.mem_cons_self w ws')
    cases ws' with
    | nil =>
      show splitWsAux w [] = [w]
      have := splitWsAux_consume_word w [] [] hwc
      rw [List.append_nil] at this
      rw [this, splitWsAux, List.append_nil, if_neg (by simpa using hw)]
      simp
    | cons w2 ws'' =>
      show splitWsAux (w ++ ' ' :: joinSpace (w2 :: ws'')) [] = w :: w2 :: ws''
      rw [splitWsAux_consume_word w _ [] hwc, List.append_nil, splitWsAux, if_pos (by rfl),
        if_neg (by simpa using hw)]
      rw [List.reverse_reverse]
      have := ih (fun x hx => hws x (List.mem_cons_of_mem w hx))
      rw [pySplit] at this
      rw [this]

/-- A list whose first and (reversed) first characters are non-whitespace
is fixed by `pyStrip`. -/
theorem pyStrip_of_ends (s : List Char)
    (h1 : s = [] ∨ ∃ c t, s = c :: t ∧ pyIsSpace c = false)
    (h2 : s = [] ∨ ∃ c t, s.reverse = c :: t ∧ pyIsSpace c = false) :
    pyStrip s = s := by
  rcases h1 with rfl | ⟨c, t, rfl, hc⟩
  · rfl
  rcases h2 with h | ⟨c2, t2, hrev, hc2⟩
  · exact absurd h (by simp)
  rw [pyStrip, List.dropWhile_cons, if_neg (by rw [hc]; simp), hrev,
    List.dropWhile_cons, if_neg (by rw [hc2]; simp), ← hrev, List.reverse_reverse]

/-- `joinSpace` of non-empty whitespace-free words starts with a
non-whitespace character. -/
theorem joinSpace_head :
    ∀ ws : List (List Char), ws ≠ [] →
      (∀ w ∈ ws, w ≠ [] ∧ ∀ c ∈ w, pyIsSpace c = false) →
      ∃ c t, joinSpace ws = c :: t ∧ pyIsSpace c = false := by
  intro ws hne hws
  cases ws with
  | nil => exact absurd rfl hne
  | cons w ws' =>
    obtain ⟨hw, hwc⟩ := hws w (List.mem_cons_self w ws')
    cases w with
    | nil => exact absurd rfl hw
    | cons c t =>
      have hc : pyIsSpace c = false := hwc c (List.mem_cons_self c t)
      cases ws' with
      | nil => exact ⟨c, t, rfl, hc⟩
      | cons w2 ws'' => exact ⟨c, t ++ ' ' :: joinSpace (w2 :: ws''), rfl, hc⟩

/-- `joinSpace` of non-empty whitespace-free words ends with a
non-whitespace character. -/
theorem joinSpace_last :
    ∀ ws : List (List Char), ws ≠ [] →
      (∀ w ∈ ws, w ≠ [] ∧ ∀ c ∈ w, pyIsSpace c = false) →
      ∃ c t, (joinSpace ws).reverse = c :: t ∧ pyIsSpace c = false := by
  intro ws
  induction ws with
  | nil => intro hne _; exact absurd rfl hne
  | cons w ws' ih =>
    intro _ hws
    obtain ⟨hw, hwc⟩ := hws w (List.mem_cons_self w ws')
    cases ws' with
    | nil =>
      show ∃ c t, w.reverse = c :: t ∧ pyIsSpace c = false
      cases hrev : w.reverse with
      | nil => exact absurd (by simpa using congrArg List.reverse hrev) hw
      | cons c t =>
        refine ⟨c, t, rfl, hwc c ?_⟩
        have : c ∈ w.reverse := by rw [hrev]; exact List.mem_cons_self c t
        exact List.mem_reverse.mp this
    | cons w2 ws'' =>
      obtain ⟨c, t, hrev, hc⟩ :=
        ih (by simp) (fun x hx => hws x (List.mem_cons_of_mem w hx))
      show ∃ c' t', (w ++ ' ' :: joinSpace (w2 :: ws'')).reverse = c' :: t' ∧ _
      rw [List.reverse_append, List.reverse_cons, List.append_assoc, hrev]
      exact ⟨c, t ++ ([' '] ++ w.reverse), rfl, hc⟩

/-- Membership in `joinSpace`: every character is a space or comes from a word. -/
theorem joinSpace_mem :
    ∀ (ws : List (List Char)) (c : Char), c ∈ joinSpace ws →
      c = ' ' ∨ ∃ w ∈ ws, c ∈ w := by
  intro ws
  induction ws with
  | nil => intro c hc; exact absurd hc (List.not_mem_nil c)
  | cons w ws' ih =>
    intro c hc
    cases ws' with
    | nil => exact Or.inr ⟨w, List.mem_cons_self w [], hc⟩
    | cons w2 ws'' =>
      rcases List.mem_append.mp hc with h | h
      · exact Or.inr ⟨w, List.mem_cons_self w _, h⟩
      · rcases List.mem_cons.mp h with rfl | h'
        · exact Or.inl rfl
        · rcases ih c h' with h'' | ⟨w', hw', hcw'⟩
          · exact Or.inl h''
          · exact Or.inr ⟨w', List.mem_cons_of_mem w hw', hcw'⟩

/-- Every character of `normalize s` is fixed by `pyToLower`. -/
theorem normalize_chars_lower (s : List Char) :
    ∀ c ∈ normalize s, pyToLower c = c := by
  intro c hc
  rcases joinSpace_mem _ c hc with rfl | ⟨w, hw, hcw⟩
  · exact pyToLower_space
  rcases splitWsAux_chars _ [] w hw c hcw with h | h
  · have h2 : c ∈ pyLowerL s := pyStrip_subset (pyLowerL s) h
    rcases List.mem_map.mp h2 with ⟨x, _, rfl⟩
    exact pyToLower_idem x
  · exact absurd h (List.not_mem_nil c)

/-- Claim C8: `normalize` — lower-case, strip the ends, collapse internal
whitespace runs to single spaces — is a total pure function on strings and
is idempotent: `normalize (normalize s) = normalize s` for every string. -/
theorem C8_normalize_idempotent (s : List Char) :
    normalize (normalize s) = normalize s := by
  have hws : ∀ w ∈ pySplit (pyStrip (pyLowerL s)), w ≠ [] ∧ ∀ c ∈ w, pyIsSpace c = false :=
    splitWsAux_words (pyStrip (pyLowerL s)) [] (fun c hc => absurd hc (List.not_mem_nil c))
  have hlow : pyLowerL (normalize s) = normalize s := by
    rw [pyLowerL]
    have := List.map_congr_left (f := pyToLower) (g := id) (normalize_chars_lower s)
    rw [this, List.map_id]
  by_cases hempty : pySplit (pyStrip (pyLowerL s)) = []
  · have hn : normalize s = [] := by rw [normalize, pySplit] at *; rw [hempty]; rfl
    rw [hn]; rfl
  · have hstrip : pyStrip (normalize s) = normalize s :=
      pyStrip_of_ends _ (Or.inr (joinSpace_head _ hempty hws))
        (Or.inr (joinSpace_last _ hempty hws))
    show joinSpace (pySplit (pyStrip (pyLowerL (normalize s)))) = normalize s
    rw [hlow, hstrip]
    show joinSpace (pySplit (joinSpace (pySplit (pyStrip (pyLowerL s))))) = normalize s
    rw [pySplit_joinSpace _ hws]
    rfl

/-! ## C1/C2: the matcher's threshold, tie-breaking and fallback policy -/

theorem get_cons_succ' {α : Type} (a : α) (l : List α) (n : Nat)
    (h : n + 1 < (a :: l).length) :
    (a :: l).get ⟨n + 1, h⟩ = l.get ⟨n, Nat.lt_of_succ_lt_succ h⟩ := rfl

theorem get_cons_zero' {α : Type} (a : α) (l : List α) (h : 0 < (a :: l).length) :
    (a :: l).get ⟨0, h⟩ = a := rfl

set_option maxHeartbeats 800000 in
/-- Full characterisation of the scoring loop: either nothing beats the
accumulator, or the result is the first entry attaining the (strict) running
maximum. -/
theorem bestLoop_spec (qn : List Char) :
    ∀ (es : List Entry) (acc : Option Entry × ℚ),
      (bestLoop qn es acc = acc ∧ ∀ e ∈ es, combinedScore qn e ≤ acc.2) ∨
      (∃ i : Fin es.length,
        bestLoop qn es acc = (some (es.get i), combinedScore qn (es.get i)) ∧
        acc.2 < combinedScore qn (es.get i) ∧
        (∀ j : Fin es.length, j.val < i.val →
          combinedScore qn (es.get j) < combinedScore qn (es.get i)) ∧
        (∀ j : Fin es.length, combinedScore qn (es.get j) ≤ combinedScore qn (es.get i))) := by
  intro es
  induction es with
  | nil => intro acc; exact Or.inl ⟨rfl, fun e he => absurd he (List.not_mem_nil e)⟩
  | cons e es ih =>
    intro acc
    have hstep : bestLoop qn (e :: es) acc =
        bestLoop qn es (if acc.2 < combinedScore qn e then (some e, combinedScore qn e) else acc) :=
      rfl
    by_cases hlt : acc.2 < combinedScore qn e
    · rw [if_pos hlt] at hstep
      rcases ih (some e, combinedScore qn e) with ⟨heq, hall⟩ | ⟨i, heq, hacc, hfirst, hall⟩
      · refine Or.inr ⟨⟨0, Nat.succ_pos es.length⟩, ?_, ?_,
          fun j (hj : j.val < 0) => absurd hj (Nat.not_lt_zero _), fun j => ?_⟩
        · rw [hstep, get_cons_zero']; exact heq
        · rw [get_cons_zero']; exact hlt
        · rw [get_cons_zero']
          rcases j with ⟨jv, hjv⟩
          cases jv with
          | zero => rw [get_cons_zero']
          | succ k =>
            rw [get_cons_succ']
            exact hall (es.get ⟨k, Nat.lt_of_succ_lt_succ hjv⟩)
              (es.get_mem k (Nat.lt_of_succ_lt_succ hjv))
      · obtain ⟨iv, hiv⟩ := i
        refine Or.inr ⟨⟨iv + 1, Nat.succ_lt_succ hiv⟩, ?_, ?_,
          fun j hj => ?_, fun j => ?_⟩
        · rw [hstep, get_cons_succ']
          exact heq
        · rw [get_cons_succ']
          have hacc' : combinedScore qn e < combinedScore qn (es.get ⟨iv, hiv⟩) := hacc
          exact lt_trans hlt hacc'
        · have hj' : j.val < iv + 1 := hj
          rw [get_cons_succ']
          rcases j with ⟨jv, hjv⟩
          cases jv with
          | zero => rw [get_cons_zero']; exact hacc
          | succ k =>
            rw [get_cons_succ']
            exact hfirst ⟨k, Nat.lt_of_succ_lt_succ hjv⟩ (Nat.lt_of_succ_lt_succ hj')
        · rw [get_cons_succ']
          rcases j with ⟨jv, hjv⟩
          cases jv with
          | zero => rw [get_cons_zero']; exact le_of_lt hacc
          | succ k =>
            rw [get_cons_succ']
            exact hall ⟨k, Nat.lt_of_succ_lt_succ hjv⟩
    · rw [if_neg hlt] at hstep
      rcases ih acc with ⟨heq, hall⟩ | ⟨i, heq, hacc, hfirst, hall⟩
      · refine Or.inl ⟨by rw [hstep]; exact heq, fun x hx => ?_⟩
        rcases List.mem_cons.mp hx with rfl | hx'
        · exact le_of_not_lt hlt
        · exact hall x hx'
      · obtain ⟨iv, hiv⟩ := i
        refine Or.inr ⟨⟨iv + 1, Nat.succ_lt_succ hiv⟩, ?_, ?_,
          fun j hj => ?_, fun j => ?_⟩
        · rw [hstep, get_cons_succ']
          exact heq
        · rw [get_cons_succ']
          exact hacc
        · have hj' : j.val < iv + 1 := hj
          rw [get_cons_succ']
          rcases j with ⟨jv, hjv⟩
          cases jv with
          | zero => rw [get_cons_zero']; exact lt_of_le_of_lt (le_of_not_lt hlt) hacc
          | succ k =>
            rw [get_cons_succ']
            exact hfirst ⟨k, Nat.lt_of_succ_lt_succ hjv⟩ (Nat.lt_of_succ_lt_succ hj')
        · rw [get_cons_succ']
          rcases j with ⟨jv, hjv⟩
          cases jv with
          | zero => rw [get_cons_zero']; exact le_of_lt (lt_of_le_of_lt (le_of_not_lt hlt) hacc)
          | succ k =>
            rw [get_cons_succ']
            exact hall ⟨k, Nat.lt_of_succ_lt_succ hjv⟩

/-- The loop's final `best_score` is the `qMax`-fold of all combined scores. -/
theorem bestLoop_snd (qn : List Char) :
    ∀ (es : List Entry) (acc : Option Entry × ℚ),
      (bestLoop qn es acc).2 = (es.map (combinedScore qn)).foldl qMax acc.2 := by
  intro es
  induction es with
  | nil => intro acc; rfl
  | cons e es ih =>
    intro acc
    have hstep : bestLoop qn (e :: es) acc =
        bestLoop qn es (if acc.2 < combinedScore qn e then (some e, combinedScore qn e) else acc) :=
      rfl
    rw [hstep, ih, List.map_cons, List.foldl_cons]
    congr 1
    rw [qMax]
    by_cases h : acc.2 < combinedScore qn e
    · rw [if_pos h, if_pos h]
    · rw [if_neg h, if_neg h]

theorem bestScore_eq_loop (kb : List Entry) (query : List Char) :
    bestScore kb query = (bestLoop (normalize query) kb (none, 0)).2 := by
  rw [bestScore, bestLoop_snd]

/-- Claim C1: for every store and query, `find_best_answer` scores each
entry with `max(s_q * 1.2, s_a * 0.9, s_t * 1.0)` (the definition of
`combinedScore`, where `s_t` is 0 for empty tags), keeps the entry with the
strictly greatest combined score (earliest entry wins ties), and when that
best score reaches `MATCH_THRESHOLD = 0.45` it returns that entry together
with its combined score. -/
theorem C1_threshold_match (kb : List Entry) (query : List Char)
    (h : MATCH_THRESHOLD ≤ bestScore kb query) :
    ∃ i : Fin kb.length,
      find_best_answer kb query =
        (some (kb.get i), combinedScore (normalize query) (kb.get i)) ∧
      combinedScore (normalize query) (kb.get i) = bestScore kb query ∧
      (∀ j : Fin kb.length, combinedScore (normalize query) (kb.get j) ≤ bestScore kb query) ∧
      (∀ j : Fin kb.length, j.val < i.val →
        combinedScore (normalize query) (kb.get j) < bestScore kb query) := by
  rcases bestLoop_spec (normalize query) kb (none, 0) with ⟨heq, _⟩ | ⟨i, heq, _, hfirst, hall⟩
  · rw [bestScore_eq_loop, heq] at h
    exact absurd h (by decide)
  · have hscore : combinedScore (normalize query) (kb.get i) = bestScore kb query := by
      rw [bestScore_eq_loop, heq]
    refine ⟨i, ?_, hscore, fun j => hscore ▸ hall j, fun j hj => hscore ▸ hfirst j hj⟩
    show (if MATCH_THRESHOLD ≤ (bestLoop (normalize query) kb (none, 0)).2 then _ else _) = _
    rw [if_pos (by rw [← bestScore_eq_loop]; exact h), heq]

/-- `List.find?` returns the first element satisfying the predicate. -/
theorem find?_first {α : Type} (p : α → Bool) :
    ∀ l : List α,
      (∃ i : Fin l.length, p (l.get i) = true ∧
        (∀ j : Fin l.length, j.val < i.val → p (l.get j) = false) ∧
        l.find? p = some (l.get i)) ∨
      ((∀ a ∈ l, p a = false) ∧ l.find? p = none) := by
  intro l
  induction l with
  | nil => exact Or.inr ⟨fun a ha => absurd ha (List.not_mem_nil a), rfl⟩
  | cons a l ih =>
    by_cases pa : p a = true
    · refine Or.inl ⟨⟨0, Nat.succ_pos l.length⟩, ?_,
        fun j (hj : j.val < 0) => absurd hj (Nat.not_lt_zero _), ?_⟩
      · rw [get_cons_zero']; exact pa
      · rw [List.find?_cons_of_pos _ pa, get_cons_zero']
    · have pa' : p a = false := eq_false_of_ne_true pa
      rcases ih with ⟨i, hp, hfirst, heq⟩ | ⟨hall, heq⟩
      · obtain ⟨iv, hiv⟩ := i
        refine Or.inl ⟨⟨iv + 1, Nat.succ_lt_succ hiv⟩, ?_, fun j hj => ?_, ?_⟩
        · rw [get_cons_succ']; exact hp
        · have hj' : j.val < iv + 1 := hj
          rcases j with ⟨jv, hjv⟩
          cases jv with
          | zero => rw [get_cons_zero']; exact pa'
          | succ k =>
            rw [get_cons_succ']
            exact hfirst ⟨k, Nat.lt_of_succ_lt_succ hjv⟩ (Nat.lt_of_succ_lt_succ hj')
        · rw [List.find?_cons_of_neg _ pa, get_cons_succ']
          exact heq
      · refine Or.inr ⟨fun x hx => ?_, by rw [List.find?_cons_of_neg _ pa]; exact heq⟩
        rcases List.mem_cons.mp hx with rfl | hx'
        · exact pa'
        · exact hall x hx'

/-- Claim C2: when the best combined score is below `MATCH_THRESHOLD = 0.45`,
`find_best_answer` returns the first entry (in store order) whose normalized
question contains a non-empty whitespace token of the normalized query,
paired with score exactly 0; with no such entry it returns
`(none, best_score_seen)`; and on the empty store it returns `(none, 0)`. -/
theorem C2_keyword_fallback (kb : List Entry) (query : List Char)
    (h : bestScore kb query < MATCH_THRESHOLD) :
    ((∃ i : Fin kb.length,
        kwHit (normalize query) (kb.get i) = true ∧
        (∀ j : Fin kb.length, j.val < i.val → kwHit (normalize query) (kb.get j) = false) ∧
        find_best_answer kb query = (some (kb.get i), 0)) ∨
      ((∀ e ∈ kb, kwHit (normalize query) e = false) ∧
        find_best_answer kb query = (none, bestScore kb query))) ∧
    (kb = [] → find_best_answer kb query = (none, 0)) := by
  have hneg : ¬ MATCH_THRESHOLD ≤ (bestLoop (normalize query) kb (none, 0)).2 := by
    rw [← bestScore_eq_loop]
    exact not_le_of_lt h
  have hunfold : find_best_answer kb query =
      (match kb.find? (kwHit (normalize query)) with
        | some item => (some item, 0)
        | none => (none, (bestLoop (normalize query) kb (none, 0)).2)) := by
    show (if MATCH_THRESHOLD ≤ (bestLoop (normalize query) kb (none, 0)).2 then _ else _) = _
    rw [if_neg hneg]
  constructor
  · rcases find?_first (kwHit (normalize query)) kb with ⟨i, hp, hfirst, heq⟩ | ⟨hall, heq⟩
    · exact Or.inl ⟨i, hp, hfirst, by rw [hunfold, heq]⟩
    · refine Or.inr ⟨hall, ?_⟩
      rw [hunfold, heq, bestScore_eq_loop]
  · rintro rfl
    rw [hunfold]
    rfl

theorem C1_threshold_match_witness :
    MATCH_THRESHOLD ≤ bestScore [(⟨str "abc", str "d", []⟩ : Entry)] (str "abc") ∧
    ∃ i : Fin ([(⟨str "abc", str "d", []⟩ : Entry)]).length,
      find_best_answer [(⟨str "abc", str "d", []⟩ : Entry)] (str "abc") =
        (some (([(⟨str "abc", str "d", []⟩ : Entry)]).get i),
          combinedScore (normalize (str "abc")) (([(⟨str "abc", str "d", []⟩ : Entry)]).get i)) ∧
      combinedScore (normalize (str "abc")) (([(⟨str "abc", str "d", []⟩ : Entry)]).get i) =
        bestScore [(⟨str "abc", str "d", []⟩ : Entry)] (str "abc") ∧
      (∀ j : Fin ([(⟨str "abc", str "d", []⟩ : Entry)]).length,
        combinedScore (normalize (str "abc")) (([(⟨str "abc", str "d", []⟩ : Entry)]).get j) ≤
          bestScore [(⟨str "abc", str "d", []⟩ : Entry)] (str "abc")) ∧
      (∀ j : Fin ([(⟨str "abc", str "d", []⟩ : Entry)]).length, j.val < i.val →
        combinedScore (normalize (str "abc")) (([(⟨str "abc", str "d", []⟩ : Entry)]).get j) <
          bestScore [(⟨str "abc", str "d", []⟩ : Entry)] (str "abc")) :=
  ⟨by decide, C1_threshold_match [⟨str "abc", str "d", []⟩] (str "abc") (by decide)⟩

theorem C2_keyword_fallback_witness :
    bestScore [(⟨str "beta", str "q", []⟩ : Entry)] (str "zzzzzzzzzzzzzzzzzzzz beta") <
      MATCH_THRESHOLD ∧
    (((∃ i : Fin ([(⟨str "beta", str "q", []⟩ : Entry)]).length,
        kwHit (normalize (str "zzzzzzzzzzzzzzzzzzzz beta")) (([(⟨str "beta", str "q", []⟩ : Entry)]).get i) = true ∧
        (∀ j : Fin ([(⟨str "beta", str "q", []⟩ : Entry)]).length, j.val < i.val →
          kwHit (normalize (str "zzzzzzzzzzzzzzzzzzzz beta")) (([(⟨str "beta", str "q", []⟩ : Entry)]).get j) = false) ∧
        find_best_answer [(⟨str "beta", str "q", []⟩ : Entry)] (str "zzzzzzzzzzzzzzzzzzzz beta") =
          (some (([(⟨str "beta", str "q", []⟩ : Entry)]).get i), 0)) ∨
      ((∀ e ∈ [(⟨str "beta", str "q", []⟩ : Entry)],
          kwHit (normalize (str "zzzzzzzzzzzzzzzzzzzz beta")) e = false) ∧
        find_best_answer [(⟨str "beta", str "q", []⟩ : Entry)] (str "zzzzzzzzzzzzzzzzzzzz beta") =
          (none, bestScore [(⟨str "beta", str "q", []⟩ : Entry)] (str "zzzzzzzzzzzzzzzzzzzz beta")))) ∧
      ([(⟨str "beta", str "q", []⟩ : Entry)] = [] →
        find_best_answer [(⟨str "beta", str "q", []⟩ : Entry)] (str "zzzzzzzzzzzzzzzzzzzz beta") =
          (none, 0))) :=
  ⟨by decide, C2_keyword_fallback [⟨str "beta", str "q", []⟩] (str "zzzzzzzzzzzzzzzzzzzz beta") (by decide)⟩

/-! ## C3/C4/C9: dispatcher and rendering behaviour -/

/-- Any message that the dispatcher routes to `/add` reaches exactly the
`/add` branch of `handle_message`. -/
theorem handle_add_branch (st : AppState) (message : List Char)
    (hne : (pyStrip message).isEmpty = false)
    (hslash : (pyStrip message).head? = some '/')
    (hcmd : pyLowerL (splitFirstSpace (pyStrip message)).1 = str "/add") :
    handle_message st message =
      (let arg := pyStrip ((splitFirstSpace (pyStrip message)).2.getD [])
       if arg.isEmpty then .ok (st, str "Usage: /add Question|Answer|tag1,tag2")
       else
         let parts := (pySplitOnChar '|' arg).map pyStrip
         if parts.length < 2 then
           .ok (st, str "Please provide at least Question and Answer separated by \x27|\x27.")
         else
           let q := parts.getD 0 []
           let a := parts.getD 1 []
           let tags :=
             if 3 ≤ parts.length ∧ ¬(parts.getD 2 []).isEmpty then
               ((pySplitOnChar ',' (parts.getD 2 [])).map pyStrip).filter (fun t => !t.isEmpty)
             else []
           .ok ({ st with kb := st.kb ++ [encodeEntry ⟨q, a, tags⟩] },
             str "Added to knowledge base.")) := by
  rw [handle_message]
  rw [if_neg (by rw [hne]; exact Bool.false_ne_true), if_pos hslash]
  rw [if_neg (by rw [hcmd]; decide), if_neg (by rw [hcmd]; decide), if_pos hcmd]

/-- Claim C9: `/add` with an empty argument, or with an argument that has
fewer than two `|`-separated parts, returns a usage-hint message and leaves
the state (in particular the store) exactly unchanged. -/
theorem C9_add_malformed_no_mutation (st : AppState) (message : List Char)
    (hne : (pyStrip message).isEmpty = false)
    (hslash : (pyStrip message).head? = some '/')
    (hcmd : pyLowerL (splitFirstSpace (pyStrip message)).1 = str "/add")
    (harg : (pyStrip ((splitFirstSpace (pyStrip message)).2.getD [])).isEmpty = true ∨
      ((pySplitOnChar '|' (pyStrip ((splitFirstSpace (pyStrip message)).2.getD []))).map
        pyStrip).length < 2) :
    handle_message st message =
      .ok (st,
        if (pyStrip ((splitFirstSpace (pyStrip message)).2.getD [])).isEmpty then
          str "Usage: /add Question|Answer|tag1,tag2"
        else str "Please provide at least Question and Answer separated by \x27|\x27.") := by
  rw [handle_add_branch st message hne hslash hcmd]
  by_cases hempty : (pyStrip ((splitFirstSpace (pyStrip message)).2.getD [])).isEmpty = true
  · rw [if_pos hempty, if_pos hempty]
  · rw [if_neg hempty, if_neg hempty]
    rcases harg with h | h
    · exact absurd h hempty
    · rw [if_pos h]

theorem C9_add_malformed_no_mutation_witness :
    ((pyStrip ((splitFirstSpace (pyStrip (str "/add OnlyOnePart"))).2.getD [])).isEmpty = true ∨
      ((pySplitOnChar '|' (pyStrip ((splitFirstSpace (pyStrip (str "/add OnlyOnePart"))).2.getD []))).map
        pyStrip).length < 2) ∧
    handle_message ⟨[], .absent⟩ (str "/add OnlyOnePart") =
      .ok (⟨[], .absent⟩,
        if (pyStrip ((splitFirstSpace (pyStrip (str "/add OnlyOnePart"))).2.getD [])).isEmpty then
          str "Usage: /add Question|Answer|tag1,tag2"
        else str "Please provide at least Question and Answer separated by \x27|\x27.") :=
  ⟨Or.inr (by decide),
   C9_add_malformed_no_mutation ⟨[], .absent⟩ (str "/add OnlyOnePart") (by decide) (by decide)
     (by decide) (Or.inr (by decide))⟩

/-- Counterexample to claim C4 as stated: the message `/add |foo` has an
empty question part after trimming, yet the dispatcher does not reject it —
it appends an entry whose `question` is the empty string, mutating the
store. -/
theorem C4_counterexample :
    handle_message ⟨[], .absent⟩ (str "/add |foo") =
      .ok (⟨[encodeEntry ⟨str "", str "foo", []⟩], .absent⟩, str "Added to knowledge base.") ∧
    (⟨str "", str "foo", []⟩ : Entry).question = [] ∧
    ([encodeEntry ⟨str "", str "foo", []⟩] : List JVal) ≠ [] := by
  refine ⟨rfl, rfl, ?_⟩
  intro h
  exact List.cons_ne_nil _ _ h

/-- Claim C4, amended: the dispatcher rejects `/add` only for an empty
argument or fewer than two `|`-separated parts.  Any argument with at
least two parts is appended verbatim after trimming — including when the
trimmed question or answer part is empty — so `/add` can construct
entries with an empty question or answer. -/
theorem C4_amended_add_appends (st : AppState) (message : List Char)
    (hne : (pyStrip message).isEmpty = false)
    (hslash : (pyStrip message).head? = some '/')
    (hcmd : pyLowerL (splitFirstSpace (pyStrip message)).1 = str "/add")
    (hargne : (pyStrip ((splitFirstSpace (pyStrip message)).2.getD [])).isEmpty = false)
    (hparts : ¬ ((pySplitOnChar '|' (pyStrip ((splitFirstSpace (pyStrip message)).2.getD []))).map
      pyStrip).length < 2) :
    handle_message st message =
      (let parts := (pySplitOnChar '|' (pyStrip ((splitFirstSpace (pyStrip message)).2.getD []))).map pyStrip
       let tags :=
         if 3 ≤ parts.length ∧ ¬(parts.getD 2 []).isEmpty then
           ((pySplitOnChar ',' (parts.getD 2 [])).map pyStrip).filter (fun t => !t.isEmpty)
         else []
       .ok ({ st with kb := st.kb ++ [encodeEntry ⟨parts.getD 0 [], parts.getD 1 [], tags⟩] },
         str "Added to knowledge base.")) := by
  rw [handle_add_branch st message hne hslash hcmd]
  rw [if_neg (by rw [hargne]; exact Bool.false_ne_true), if_neg hparts]

theorem C4_amended_add_appends_witness :
    (pyStrip ((splitFirstSpace (pyStrip (str "/add |foo"))).2.getD [])).isEmpty = false ∧
    handle_message ⟨[], .absent⟩ (str "/add |foo") =
      (let parts := (pySplitOnChar '|' (pyStrip ((splitFirstSpace (pyStrip (str "/add |foo"))).2.getD []))).map pyStrip
       let tags :=
         if 3 ≤ parts.length ∧ ¬(parts.getD 2 []).isEmpty then
           ((pySplitOnChar ',' (parts.getD 2 [])).map pyStrip).filter (fun t => !t.isEmpty)
         else []
       .ok ({ kb := [] ++ [encodeEntry ⟨parts.getD 0 [], parts.getD 1 [], tags⟩],
              file := .absent },
         str "Added to knowledge base.")) :=
  ⟨by decide,
   C4_amended_add_appends ⟨[], .absent⟩ (str "/add |foo") (by decide) (by decide) (by decide)
     (by decide) (by decide)⟩

theorem except_ok_bind {α β : Type} (x : α) (f : α → Except PyErr β) :
    ((Except.ok x : Except PyErr α) >>= f) = f x := rfl

/-- Counterexample to claim C3 as stated: on a keyword-fallback reply the
returned score is exactly `0.0` and `if score and score < 0.6` is false
(Python treats `0.0` as falsy), so the reply carries *no* metadata line —
the claim says it would be annotated with score 0.00. -/
theorem C3_counterexample :
    find_best_answerJ (encodeKB [⟨str "beta", str "q", []⟩]) (str "zzzzzzzzzzzzzzzzzzzz beta") =
      .ok (some (encodeEntry ⟨str "beta", str "q", []⟩), 0) ∧
    handle_message ⟨encodeKB [⟨str "beta", str "q", []⟩], .absent⟩
        (str "zzzzzzzzzzzzzzzzzzzz beta") =
      .ok (⟨encodeKB [⟨str "beta", str "q", []⟩], .absent⟩, str "Bot:\n  q") ∧
    containsSub (str "(matched:") (str "Bot:\n  q") = false := by
  exact ⟨rfl, rfl, rfl⟩

/-- Claim C3, amended: when a query resolves to an entry, the rendered
reply appends the metadata line (matched question, score to two decimals)
exactly when the returned score is nonzero and below 0.6; in particular a
zero score — the keyword fallback — produces the bare wrapped answer with
*no* annotation. -/
theorem C3_amended_meta_line (st : AppState) (message : List Char) (v qv : JVal)
    (ansStr : List Char) (score : ℚ)
    (hne : (pyStrip message).isEmpty = false)
    (hnoslash : ¬ (pyStrip message).head? = some '/')
    (hfind : find_best_answerJ st.kb (pyStrip message) = .ok (some v, score))
    (htruthy : pyTruthy v = true)
    (hans : jGet v (str "answer") = .ok (JVal.str ansStr))
    (hq : jGet v (str "question") = .ok qv) :
    handle_message st message =
      .ok (st, str "Bot:\n" ++ format_wrapped ansStr 2 80 ++
        (if score ≠ 0 ∧ score < mkRat 3 5 then metaLine (pyStr qv) score else [])) ∧
    (score = 0 →
      handle_message st message = .ok (st, str "Bot:\n" ++ format_wrapped ansStr 2 80)) := by
  have hmain : handle_message st message =
      .ok (st, str "Bot:\n" ++ format_wrapped ansStr 2 80 ++
        (if score ≠ 0 ∧ score < mkRat 3 5 then metaLine (pyStr qv) score else [])) := by
    rw [handle_message]
    rw [if_neg (by rw [hne]; exact Bool.false_ne_true), if_neg hnoslash]
    rw [hfind, except_ok_bind]
    dsimp only
    rw [if_pos htruthy]
    rw [hans, except_ok_bind]
    dsimp only [asStr]
    rw [except_ok_bind]
    rw [hq, except_ok_bind]
  refine ⟨hmain, fun h0 => ?_⟩
  rw [hmain, if_neg (fun hc => hc.1 h0), List.append_nil]

theorem C3_amended_meta_line_witness :
    (pyStrip (str "abcd")).isEmpty = false ∧
    find_best_answerJ (encodeKB [⟨str "zzzz", str "abcdefghi", []⟩]) (pyStrip (str "abcd")) =
      .ok (some (encodeEntry ⟨str "zzzz", str "abcdefghi", []⟩), mkRat 36 65) ∧
    handle_message ⟨encodeKB [⟨str "zzzz", str "abcdefghi", []⟩], .absent⟩ (str "abcd") =
      .ok (⟨encodeKB [⟨str "zzzz", str "abcdefghi", []⟩], .absent⟩,
        str "Bot:\n" ++ format_wrapped (str "abcdefghi") 2 80 ++
          (if mkRat 36 65 ≠ 0 ∧ mkRat 36 65 < mkRat 3 5 then
            metaLine (pyStr (JVal.str (str "zzzz"))) (mkRat 36 65) else [])) :=
  ⟨by decide, rfl,
   (C3_amended_meta_line ⟨encodeKB [⟨str "zzzz", str "abcdefghi", []⟩], .absent⟩ (str "abcd")
     (encodeEntry ⟨str "zzzz", str "abcdefghi", []⟩) (JVal.str (str "zzzz"))
     (str "abcdefghi") (mkRat 36 65) (by decide) (by decide) rfl rfl rfl rfl).1⟩

/-! ## C7: the similarity score is 1 on equal strings and always in [0, 1]

First the range discipline of `find_longest_match` (needed for the upper
bound of the ratio), then the diagonal analysis of the row loop on two
equal strings. -/

theorem innerLoop_bounds (blo bhi i alo ahi : Nat) (prev : Nat → Nat)
    (hi1 : alo ≤ i) (hi2 : i < ahi)
    (hprev : RowBounded alo blo i prev) :
    ∀ (js : List Nat) (cur : Nat → Nat) (best : Best),
      RowBounded alo blo (i + 1) cur →
      BestInBounds alo ahi blo bhi best →
      RowBounded alo blo (i + 1) (innerLoop blo bhi i prev js cur best).1 ∧
      BestInBounds alo ahi blo bhi (innerLoop blo bhi i prev js cur best).2 := by
  intro js
  induction js with
  | nil =>
    intro cur best hcur hbest
    rw [innerLoop]
    exact ⟨hcur, hbest⟩
  | cons j js ih =>
    intro cur best hcur hbest
    rw [innerLoop]
    by_cases hjlo : j < blo
    · rw [if_pos hjlo]
      exact ih cur best hcur hbest
    · rw [if_neg hjlo]
      by_cases hjhi : bhi ≤ j
      · rw [if_pos hjhi]
        exact ⟨hcur, hbest⟩
      · rw [if_neg hjhi]
        have hblo : blo ≤ j := le_of_not_lt hjlo
        have hjbhi : j < bhi := lt_of_not_le hjhi
        have hk1 : (if j = 0 then 0 else prev (j - 1)) + 1 + alo ≤ i + 1 := by
          by_cases hj0 : j = 0
          · rw [if_pos hj0]; omega
          · rw [if_neg hj0]
            have := (hprev (j - 1)).1
            omega
        have hk2 : (if j = 0 then 0 else prev (j - 1)) + 1 + blo ≤ j + 1 := by
          by_cases hj0 : j = 0
          · rw [if_pos hj0]; omega
          · rw [if_neg hj0]
            rcases (hprev (j - 1)).2 with h | h
            · rw [h]; omega
            · omega
        refine ih _ _ (fun x => ?_) ?_
        · by_cases hx : x = j
          · subst hx
            constructor
            · simp only [if_pos rfl]
              exact hk1
            · simp only [if_pos rfl]
              right
              exact hk2
          · simp only [if_neg hx]
            exact hcur x
        · by_cases hup : best.size < (if j = 0 then 0 else prev (j - 1)) + 1
          · rw [if_pos hup]
            refine ⟨?_, ?_, ?_, ?_⟩ <;> dsimp only <;> omega
          · rw [if_neg hup]
            exact hbest

theorem rowLoop_bounds (a b : List Char) (blo bhi alo ahi : Nat) :
    ∀ (n i0 : Nat) (prev : Nat → Nat) (best : Best),
      alo ≤ i0 → i0 + n ≤ ahi →
      RowBounded alo blo i0 prev →
      BestInBounds alo ahi blo bhi best →
      BestInBounds alo ahi blo bhi
        (rowLoop a b blo bhi (List.range' i0 n) prev best) := by
  intro n
  induction n with
  | zero => intro i0 prev best _ _ _ hbest; exact hbest
  | succ n ih =>
    intro i0 prev best h1 h2 hprev hbest
    rw [List.range'_succ, rowLoop]
    have hin := innerLoop_bounds blo bhi i0 alo ahi prev h1 (by omega) hprev
      (b2j b (chAt a i0)) (fun _ => 0) best
      (fun j => ⟨by dsimp only; omega, Or.inl rfl⟩) hbest
    exact ih (i0 + 1) _ _ (by omega) (by omega) hin.1 hin.2

theorem extendBack_bounds (a b : List Char) (alo blo ahi bhi : Nat) :
    ∀ (bi bj bs : Nat), alo ≤ bi → blo ≤ bj → bi + bs ≤ ahi → bj + bs ≤ bhi →
      BestInBounds alo ahi blo bhi (extendBack a b alo blo bi bj bs) := by
  intro bi
  induction bi with
  | zero =>
    intro bj bs h1 h2 h3 h4
    rw [extendBack]
    exact ⟨h1, h2, h3, h4⟩
  | succ bi ih =>
    intro bj bs h1 h2 h3 h4
    rw [extendBack]
    by_cases hc : alo < bi + 1 ∧ blo < bj ∧ optCharEq (a.get? bi) (b.get? (bj - 1)) = true
    · rw [if_pos hc]
      exact ih (bj - 1) (bs + 1) (by omega) (by omega) (by omega) (by omega)
    · rw [if_neg hc]
      exact ⟨h1, h2, h3, h4⟩

theorem extendFwd_bounds (a b : List Char) (ahi bhi bi bj : Nat) :
    ∀ (fuel bs : Nat), bi + bs ≤ ahi → bj + bs ≤ bhi →
      bi + extendFwd a b ahi bhi bi bj fuel bs ≤ ahi ∧
      bj + extendFwd a b ahi bhi bi bj fuel bs ≤ bhi := by
  intro fuel
  induction fuel with
  | zero => intro bs h1 h2; rw [extendFwd]; exact ⟨h1, h2⟩
  | succ fuel ih =>
    intro bs h1 h2
    rw [extendFwd]
    by_cases hc : bi + bs < ahi ∧ bj + bs < bhi ∧
      optCharEq (a.get? (bi + bs)) (b.get? (bj + bs)) = true
    · rw [if_pos hc]
      exact ih (bs + 1) (by omega) (by omega)
    · rw [if_neg hc]
      exact ⟨h1, h2⟩

theorem flm_bounds (a b : List Char) (alo ahi blo bhi : Nat)
    (h1 : alo ≤ ahi) (h2 : blo ≤ bhi) :
    BestInBounds alo ahi blo bhi (flm a b alo ahi blo bhi) := by
  rw [flm]
  have hrow := rowLoop_bounds a b blo bhi alo ahi (ahi - alo) alo (fun _ => 0)
    ⟨alo, blo, 0⟩ (le_refl alo) (by omega) (fun j => ⟨by dsimp only; omega, Or.inl rfl⟩)
    ⟨le_refl alo, le_refl blo, by dsimp only; omega, by dsimp only; omega⟩
  set m := rowLoop a b blo bhi (List.range' alo (ahi - alo)) (fun _ => 0) ⟨alo, blo, 0⟩
  obtain ⟨hm1, hm2, hm3, hm4⟩ := hrow
  have hback := extendBack_bounds a b alo blo ahi bhi m.i m.j m.size hm1 hm2 hm3 hm4
  set m' := extendBack a b alo blo m.i m.j m.size
  obtain ⟨hb1, hb2, hb3, hb4⟩ := hback
  have hfwd := extendFwd_bounds a b ahi bhi m'.i m'.j (ahi + 1) m'.size hb3 hb4
  exact ⟨hb1, hb2, hfwd.1, hfwd.2⟩

theorem matchesSum_le (a b : List Char) :
    ∀ (fuel alo ahi blo bhi : Nat), alo ≤ ahi → blo ≤ bhi →
      matchesSum a b fuel alo ahi blo bhi ≤ min (ahi - alo) (bhi - blo) := by
  intro fuel
  induction fuel with
  | zero => intro alo ahi blo bhi _ _; rw [matchesSum]; omega
  | succ fuel ih =>
    intro alo ahi blo bhi h1 h2
    rw [matchesSum]
    obtain ⟨hm1, hm2, hm3, hm4⟩ := flm_bounds a b alo ahi blo bhi h1 h2
    set m := flm a b alo ahi blo bhi
    by_cases hz : m.size = 0
    · rw [if_pos hz]; omega
    · rw [if_neg hz]
      have hc1 : (if alo < m.i ∧ blo < m.j then matchesSum a b fuel alo m.i blo m.j else 0) ≤
          min (m.i - alo) (m.j - blo) := by
        by_cases hg : alo < m.i ∧ blo < m.j
        · rw [if_pos hg]
          exact ih alo m.i blo m.j (by omega) (by omega)
        · rw [if_neg hg]; omega
      have hc2 : (if m.i + m.size < ahi ∧ m.j + m.size < bhi then
          matchesSum a b fuel (m.i + m.size) ahi (m.j + m.size) bhi else 0) ≤
          min (ahi - (m.i + m.size)) (bhi - (m.j + m.size)) := by
        by_cases hg : m.i + m.size < ahi ∧ m.j + m.size < bhi
        · rw [if_pos hg]
          exact ih (m.i + m.size) ahi (m.j + m.size) bhi (by omega) (by omega)
        · rw [if_neg hg]; omega
      omega

theorem ratioVal_bounds (a b : List Char) : 0 ≤ ratioVal a b ∧ ratioVal a b ≤ 1 := by
  rw [ratioVal]
  by_cases hz : a.length + b.length = 0
  · rw [if_pos hz]
    norm_num
  · rw [if_neg hz]
    have hm := matchesSum_le a b (a.length + 1) 0 a.length 0 b.length
      (Nat.zero_le _) (Nat.zero_le _)
    set m := matchesSum a b (a.length + 1) 0 a.length 0 b.length
    have hm2 : 2 * m ≤ a.length + b.length := by omega
    rw [Rat.mkRat_eq_divInt, Rat.divInt_eq_div]
    constructor
    · apply div_nonneg
      · positivity
      · positivity
    · rw [div_le_one (by positivity)]
      push_cast
      exact_mod_cast hm2

theorem mem_b2j (b : List Char) (c : Char) (j : Nat) :
    j ∈ b2j b c ↔ isPopular b c = false ∧ j < b.length ∧ b.get? j = some c := by
  rw [b2j]
  by_cases hp : isPopular b c = true
  · rw [if_pos hp]
    simp [hp]
  · have hp' : isPopular b c = false := eq_false_of_ne_true hp
    rw [if_neg (by rw [hp']; exact Bool.false_ne_true), indicesOf]
    simp [List.mem_filter, List.mem_range, hp', beq_iff_eq]

theorem get?_chAt (a : List Char) (t : Nat) (ht : t < a.length) :
    a.get? t = some (chAt a t) := by
  have hx : ∃ x, a.get? t = some x := by
    cases h : a.get? t with
    | none =>
      rw [List.get?_eq_none] at h
      omega
    | some x => exact ⟨x, rfl⟩
  obtain ⟨x, hx⟩ := hx
  rw [chAt, List.getD, hx]
  rfl

theorem mem_b2j_self (a : List Char) (t : Nat) (ht : t < a.length)
    (hpop : isPopular a (chAt a t) = false) : t ∈ b2j a (chAt a t) :=
  (mem_b2j _ _ _).mpr ⟨hpop, ht, get?_chAt a t ht⟩

theorem streak_diag_succ (a : List Char) (m : Nat)
    (h : (m + 1) ∈ b2j a (chAt a (m + 1))) :
    streak a a (m + 1) (m + 1) = streak a a m m + 1 := by
  rw [streak, if_pos h]

theorem streak_not_mem (a b : List Char) (i j : Nat)
    (h : ¬ j ∈ b2j b (chAt a i)) : streak a b i j = 0 := by
  cases i with
  | zero => rw [streak, if_neg h]
  | succ i2 =>
    cases j with
    | zero => rw [streak, if_neg h]
    | succ j2 => rw [streak, if_neg h]

/-- The `j2len` streak at `(i, j)` for two equal strings never exceeds the
diagonal streak at `min i j` — the key fact that keeps the running best of
`find_longest_match` on the diagonal when `a = b`. -/
theorem streak_le_diag (a : List Char) :
    ∀ (i j : Nat), i < a.length →
      streak a a i j ≤ streak a a (min i j) (min i j) := by
  intro i
  induction i with
  | zero =>
    intro j hlen
    rw [Nat.zero_min]
    by_cases hm : j ∈ b2j a (chAt a 0)
    · obtain ⟨hpop, _, _⟩ := (mem_b2j _ _ _).mp hm
      rw [streak, if_pos hm, streak, if_pos (mem_b2j_self a 0 hlen hpop)]
    · rw [streak, if_neg hm]
      exact Nat.zero_le _
  | succ i ih =>
    intro j hlen
    by_cases hm : j ∈ b2j a (chAt a (i + 1))
    · obtain ⟨hpop, hjlen, hget⟩ := (mem_b2j _ _ _).mp hm
      have hchj : chAt a j = chAt a (i + 1) := by
        have h2 := get?_chAt a j hjlen
        rw [h2] at hget
        exact Option.some.inj hget
      cases j with
      | zero =>
        have hm0 : 0 ∈ b2j a (chAt a 0) := by
          rw [hchj]
          exact hm
        rw [streak, if_pos hm, Nat.min_zero, streak, if_pos hm0]
      | succ j' =>
        have hstep : streak a a (i + 1) (j' + 1) = streak a a i j' + 1 := by
          rw [streak, if_pos hm]
        have hmin : min (i + 1) (j' + 1) = min i j' + 1 := by omega
        have hmem_min : (min i j' + 1) ∈ b2j a (chAt a (min i j' + 1)) := by
          rcases Nat.le_total i j' with hle | hle
          · rw [Nat.min_eq_left hle]
            exact mem_b2j_self a (i + 1) hlen hpop
          · rw [Nat.min_eq_right hle, hchj]
            exact hm
        have hdiag : streak a a (min i j' + 1) (min i j' + 1) =
            streak a a (min i j') (min i j') + 1 :=
          streak_diag_succ a (min i j') hmem_min
        rw [hstep, hmin, hdiag]
        exact Nat.succ_le_succ (ih j' (by omega))
    · rw [streak_not_mem a a (i + 1) j hm]
      exact Nat.zero_le _

/-- On two equal strings and full ranges, the inner loop keeps the running
best on the diagonal, computes the new `j2len` row exactly, and its best
size dominates every diagonal streak up to the current row. -/
theorem innerLoop_diag (a : List Char) (t : Nat) (ht : t < a.length) (prev : Nat → Nat)
    (hprev : ∀ j, prev j = streakRow a a t j) :
    ∀ (L : List Nat) (cur : Nat → Nat) (best : Best),
      (∀ j ∈ L, j ∈ b2j a (chAt a t)) →
      L.Pairwise (· < ·) →
      (∀ j, ¬ j ∈ L → cur j = streak a a t j) →
      best.i = best.j →
      (∀ m, m < t → streak a a m m ≤ best.size) →
      (streak a a t t ≤ best.size ∨ t ∈ L) →
      (∀ j, (innerLoop 0 a.length t prev L cur best).1 j = streak a a t j) ∧
      (innerLoop 0 a.length t prev L cur best).2.i =
        (innerLoop 0 a.length t prev L cur best).2.j ∧
      (∀ m, m < t → streak a a m m ≤ (innerLoop 0 a.length t prev L cur best).2.size) ∧
      streak a a t t ≤ (innerLoop 0 a.length t prev L cur best).2.size := by
  intro L
  induction L with
  | nil =>
    intro cur best _ _ hcur hb hD hDt
    rw [innerLoop]
    refine ⟨fun j => hcur j (List.not_mem_nil j), hb, hD, ?_⟩
    rcases hDt with h | h
    · exact h
    · exact absurd h (List.not_mem_nil t)
  | cons j L ih =>
    intro cur best hsub hsort hcur hb hD hDt
    have hmj : j ∈ b2j a (chAt a t) := hsub j (List.mem_cons_self j L)
    obtain ⟨hpopj, hjlen, hgetj⟩ := (mem_b2j _ _ _).mp hmj
    rw [innerLoop, if_neg (Nat.not_lt_zero j), if_neg (not_le.mpr hjlen)]
    have hk : (if j = 0 then 0 else prev (j - 1)) + 1 = streak a a t j := by
      cases t with
      | zero =>
        rw [streak, if_pos hmj]
        by_cases hj0 : j = 0
        · rw [if_pos hj0]
        · rw [if_neg hj0, hprev (j - 1)]
          rfl
      | succ t' =>
        cases j with
        | zero =>
          rw [if_pos rfl, streak, if_pos hmj]
        | succ j' =>
          rw [if_neg (Nat.succ_ne_zero j'), show j' + 1 - 1 = j' from rfl, hprev j',
            streak, if_pos hmj]
          rfl
    have hsub' : ∀ x ∈ L, x ∈ b2j a (chAt a t) :=
      fun x hx => hsub x (List.mem_cons_of_mem j hx)
    have hsort' : L.Pairwise (· < ·) := (List.pairwise_cons.mp hsort).2
    have hcur' : ∀ x, ¬ x ∈ L → (if x = j then streak a a t j else cur x) = streak a a t x := by
      intro x hx
      by_cases hxj : x = j
      · subst hxj
        rw [if_pos rfl]
      · rw [if_neg hxj]
        refine hcur x (fun hxm => ?_)
        rcases List.mem_cons.mp hxm with h | h
        · exact hxj h
        · exact hx h
    dsimp only
    rw [hk]
    rcases Nat.lt_trichotomy j t with hjt | hjt | hjt
    · have hle : streak a a t j ≤ best.size := by
        have h1 := streak_le_diag a t j ht
        rw [Nat.min_eq_right (le_of_lt hjt)] at h1
        exact le_trans h1 (hD j hjt)
      rw [if_neg (not_lt.mpr hle)]
      refine ih _ _ hsub' hsort' (fun x hx => hcur' x hx) hb hD ?_
      rcases hDt with h | h
      · exact Or.inl h
      · rcases List.mem_cons.mp h with heq | h'
        · exfalso; omega
        · exact Or.inr h'
    · subst hjt
      by_cases hup : best.size < streak a a j j
      · rw [if_pos hup]
        refine ih _ _ hsub' hsort' (fun x hx => hcur' x hx) rfl (fun m hm => ?_)
          (Or.inl (Nat.le_refl _))
        exact le_trans (hD m hm) (le_of_lt hup)
      · rw [if_neg hup]
        exact ih _ _ hsub' hsort' (fun x hx => hcur' x hx) hb hD (Or.inl (not_lt.mp hup))
    · have hDtt : streak a a t t ≤ best.size := by
        rcases hDt with h | h
        · exact h
        · exfalso
          rcases List.mem_cons.mp h with heq | h'
          · omega
          · have := (List.pairwise_cons.mp hsort).1 t h'
            omega
      have hle : streak a a t j ≤ best.size := by
        have h1 := streak_le_diag a t j ht
        rw [Nat.min_eq_left (le_of_lt hjt)] at h1
        exact le_trans h1 hDtt
      rw [if_neg (not_lt.mpr hle)]
      exact ih _ _ hsub' hsort' (fun x hx => hcur' x hx) hb hD (Or.inl hDtt)

theorem b2j_pairwise (b : List Char) (c : Char) : (b2j b c).Pairwise (· < ·) := by
  rw [b2j]
  by_cases hp : isPopular b c = true
  · rw [if_pos hp]
    exact List.Pairwise.nil
  · rw [if_neg hp, indicesOf]
    exact (List.pairwise_lt_range _).filter _

/-- On two equal strings and full ranges, the row loop ends with a best
match on the diagonal whose size dominates every diagonal streak seen. -/
theorem rowLoop_diag (a : List Char) :
    ∀ (nrows t0 : Nat) (prev : Nat → Nat) (best : Best),
      t0 + nrows ≤ a.length →
      (∀ j, prev j = streakRow a a t0 j) →
      best.i = best.j →
      (∀ m, m < t0 → streak a a m m ≤ best.size) →
      (rowLoop a a 0 a.length (List.range' t0 nrows) prev best).i =
        (rowLoop a a 0 a.length (List.range' t0 nrows) prev best).j ∧
      (∀ m, m < t0 + nrows →
        streak a a m m ≤ (rowLoop a a 0 a.length (List.range' t0 nrows) prev best).size) := by
  intro nrows
  induction nrows with
  | zero =>
    intro t0 prev best _ _ hb hD
    rw [List.range'_zero, rowLoop]
    exact ⟨hb, fun m hm => hD m (by omega)⟩
  | succ nrows ih =>
    intro t0 prev best hlen hprev hb hD
    rw [List.range'_succ, rowLoop]
    have ht0 : t0 < a.length := by omega
    have hDt : streak a a t0 t0 ≤ best.size ∨ t0 ∈ b2j a (chAt a t0) := by
      by_cases htm : t0 ∈ b2j a (chAt a t0)
      · exact Or.inr htm
      · left
        rw [streak_not_mem a a t0 t0 htm]
        exact Nat.zero_le _
    obtain ⟨hcurF, hdiagF, hDF, hDtF⟩ :=
      innerLoop_diag a t0 ht0 prev hprev (b2j a (chAt a t0)) (fun _ => 0) best
        (fun j hj => hj) (b2j_pairwise a (chAt a t0))
        (fun j hj => (streak_not_mem a a t0 j hj).symm) hb hD hDt
    have hres := ih (t0 + 1)
      (innerLoop 0 a.length t0 prev (b2j a (chAt a t0)) (fun _ => 0) best).1
      (innerLoop 0 a.length t0 prev (b2j a (chAt a t0)) (fun _ => 0) best).2
      (by omega) (fun j => hcurF j) hdiagF
      (fun m hm => by
        rcases Nat.lt_succ_iff_lt_or_eq.mp hm with h | h
        · exact hDF m h
        · rw [h]
          exact hDtF)
    exact ⟨hres.1, fun m hm => hres.2 m (by omega)⟩

theorem extendBack_diag (a : List Char) :
    ∀ (d bs : Nat), d + bs ≤ a.length →
      extendBack a a 0 0 d d bs = ⟨0, 0, d + bs⟩ := by
  intro d
  induction d with
  | zero =>
    intro bs _
    rw [extendBack, Nat.zero_add]
  | succ d ih =>
    intro bs hlen
    have hc : 0 < d + 1 ∧ 0 < d + 1 ∧ optCharEq (a.get? d) (a.get? (d + 1 - 1)) = true := by
      refine ⟨Nat.succ_pos d, Nat.succ_pos d, ?_⟩
      rw [show d + 1 - 1 = d from rfl, get?_chAt a d (by omega), optCharEq]
      exact beq_self_eq_true _
    rw [extendBack, if_pos hc, show d + 1 - 1 = d from rfl,
      ih (bs + 1) (by omega), show d + (bs + 1) = d + 1 + bs from by omega]

theorem extendFwd_self (a : List Char) :
    ∀ (fuel bs : Nat), bs ≤ a.length → a.length - bs ≤ fuel →
      extendFwd a a a.length a.length 0 0 fuel bs = a.length := by
  intro fuel
  induction fuel with
  | zero =>
    intro bs h1 h2
    rw [extendFwd]
    omega
  | succ fuel ih =>
    intro bs h1 h2
    by_cases hbs : bs < a.length
    · have hc : 0 + bs < a.length ∧ 0 + bs < a.length ∧
          optCharEq (a.get? (0 + bs)) (a.get? (0 + bs)) = true := by
        refine ⟨by omega, by omega, ?_⟩
        rw [Nat.zero_add, get?_chAt a bs hbs, optCharEq]
        exact beq_self_eq_true _
      rw [extendFwd, if_pos hc]
      exact ih (bs + 1) (by omega) (by omega)
    · have hc : ¬ (0 + bs < a.length ∧ 0 + bs < a.length ∧
          optCharEq (a.get? (0 + bs)) (a.get? (0 + bs)) = true) := by
        intro hcon
        omega
      rw [extendFwd, if_neg hc]
      omega

/-- `find_longest_match` on two copies of the same string over the full
ranges returns the whole string as one match. -/
theorem flm_self (a : List Char) :
    flm a a 0 a.length 0 a.length = ⟨0, 0, a.length⟩ := by
  rw [flm]
  have hdiag := rowLoop_diag a (a.length - 0) 0 (fun _ => 0) ⟨0, 0, 0⟩
    (by omega) (fun j => rfl) rfl (fun m hm => by omega)
  have hbounds := rowLoop_bounds a a 0 a.length 0 a.length (a.length - 0) 0 (fun _ => 0)
    ⟨0, 0, 0⟩ (Nat.le_refl 0) (by omega) (fun j => ⟨by dsimp only; omega, Or.inl rfl⟩)
    ⟨Nat.le_refl 0, Nat.le_refl 0, by dsimp only; omega, by dsimp only; omega⟩
  set m := rowLoop a a 0 a.length (List.range' 0 (a.length - 0)) (fun _ => 0) ⟨0, 0, 0⟩ with hm
  obtain ⟨hij, _⟩ := hdiag
  obtain ⟨_, _, hsz, _⟩ := hbounds
  have hback : extendBack a a 0 0 m.i m.j m.size = ⟨0, 0, m.i + m.size⟩ := by
    rw [show m.j = m.i from hij.symm]
    exact extendBack_diag a m.i m.size hsz
  rw [hback]
  have hfwd : extendFwd a a a.length a.length 0 0 (a.length + 1) (m.i + m.size) = a.length :=
    extendFwd_self a (a.length + 1) (m.i + m.size) hsz (by omega)
  dsimp only
  rw [hfwd]

theorem matchesSum_self (a : List Char) :
    matchesSum a a (a.length + 1) 0 a.length 0 a.length = a.length := by
  rw [matchesSum]
  rw [flm_self]
  by_cases hz : a.length = 0
  · dsimp only
    rw [if_pos hz]
    omega
  · dsimp only
    rw [if_neg hz, if_neg (by omega : ¬ ((0 : Nat) < 0 ∧ (0 : Nat) < 0)),
      if_neg (by omega : ¬ (0 + a.length < a.length ∧ 0 + a.length < a.length))]
    omega

theorem ratioVal_self (x : List Char) : ratioVal x x = 1 := by
  rw [ratioVal]
  by_cases hz : x.length + x.length = 0
  · rw [if_pos hz]
  · rw [if_neg hz]
    rw [matchesSum_self]
    have hlen : 0 < x.length := by omega
    rw [Rat.mkRat_eq_divInt, Rat.divInt_eq_div]
    push_cast
    rw [show (x.length : ℚ) + x.length = 2 * x.length from by ring]
    rw [div_self]
    have h2 : (0 : ℚ) < 2 * x.length := by
      have : (0 : ℚ) < (x.length : ℚ) := by exact_mod_cast hlen
      linarith
    exact ne_of_gt h2

/-- Claim C7: the similarity score (the sequence-matcher ratio 2M/T over
the normalized inputs) is 1 on any string compared with itself — in
particular on any normalized non-empty string and on two empty strings —
and lies in [0, 1] for all inputs. -/
theorem C7_similarity_bounds :
    (∀ x : List Char, score_match x x = 1) ∧
    score_match (str "") (str "") = 1 ∧
    (∀ a b : List Char, 0 ≤ score_match a b ∧ score_match a b ≤ 1) :=
  ⟨fun x => ratioVal_self (normalize x),
   ratioVal_self (normalize (str "")),
   fun a b => ratioVal_bounds (normalize a) (normalize b)⟩

/-! ## Coherence of the two matcher embeddings

On a store of well-formed entries, the raw-store matcher (dynamic typing
made explicit) never fails and agrees with the entry-level matcher. -/

theorem mapM_score_tags (qn : List Char) :
    ∀ ts : List (List Char),
      (ts.map JVal.str).mapM (fun t => do
        let s ← asStr t
        pure (score_match qn s)) =
      (.ok (ts.map (fun t => score_match qn t)) : Except PyErr (List ℚ)) := by
  intro ts
  induction ts with
  | nil => rfl
  | cons t ts ih =>
    rw [List.map_cons, List.mapM_cons, show ((do
      let s ← asStr (JVal.str t)
      pure (score_match qn s)) : Except PyErr ℚ) = .ok (score_match qn t) from rfl,
      except_ok_bind, ih]
    rfl

theorem entryScoreJ_encode (qn : List Char) (e : Entry) :
    entryScoreJ qn (encodeEntry e) = .ok (combinedScore qn e) := by
  obtain ⟨q, a, tags⟩ := e
  cases tags with
  | nil => rfl
  | cons t ts =>
    rw [entryScoreJ]
    rw [show jGet (encodeEntry ⟨q, a, t :: ts⟩) (str "question") = .ok (.str q) from rfl,
      except_ok_bind]
    rw [show asStr (JVal.str q) = .ok q from rfl, except_ok_bind]
    dsimp only
    rw [show jGet (encodeEntry ⟨q, a, t :: ts⟩) (str "answer") = .ok (.str a) from rfl,
      except_ok_bind]
    rw [show asStr (JVal.str a) = .ok a from rfl, except_ok_bind]
    rw [show jGetOpt (encodeEntry ⟨q, a, t :: ts⟩) (str "tags") =
      .ok (some (.arr ((t :: ts).map JVal.str))) from rfl, except_ok_bind]
    dsimp only
    rw [if_pos (show pyTruthy (.arr ((t :: ts).map JVal.str)) = true from rfl)]
    rw [show pyIter (.arr ((t :: ts).map JVal.str)) = .ok ((t :: ts).map JVal.str) from rfl,
      except_ok_bind]
    rw [mapM_score_tags qn (t :: ts), except_ok_bind]
    rfl

theorem bestLoopJ_encode (qn : List Char) :
    ∀ (es : List Entry) (accO : Option Entry) (accS : ℚ),
      bestLoopJ qn (encodeKB es) (accO.map encodeEntry, accS) =
        .ok ((bestLoop qn es (accO, accS)).1.map encodeEntry,
          (bestLoop qn es (accO, accS)).2) := by
  intro es
  induction es with
  | nil => intro accO accS; rfl
  | cons e es ih =>
    intro accO accS
    show bestLoopJ qn (encodeEntry e :: encodeKB es) _ = _
    rw [bestLoopJ, entryScoreJ_encode, except_ok_bind]
    have hstep : bestLoop qn (e :: es) (accO, accS) =
        bestLoop qn es (if accS < combinedScore qn e then (some e, combinedScore qn e)
          else (accO, accS)) := rfl
    rw [hstep]
    by_cases h : accS < combinedScore qn e
    · rw [if_pos (show (Option.map encodeEntry accO, accS).2 < combinedScore qn e from h),
        if_pos h]
      exact ih (some e) (combinedScore qn e)
    · rw [if_neg (show ¬ (Option.map encodeEntry accO, accS).2 < combinedScore qn e from h),
        if_neg h]
      exact ih accO accS

theorem fallbackJ_encode (qn : List Char) :
    ∀ es : List Entry,
      fallbackJ qn (encodeKB es) = .ok ((es.find? (kwHit qn)).map encodeEntry) := by
  intro es
  induction es with
  | nil => rfl
  | cons e es ih =>
    show fallbackJ qn (encodeEntry e :: encodeKB es) = _
    rw [fallbackJ]
    rw [show jGet (encodeEntry e) (str "question") = .ok (.str e.question) from rfl,
      except_ok_bind]
    rw [show asStr (JVal.str e.question) = .ok e.question from rfl, except_ok_bind]
    dsimp only
    by_cases h : kwHit qn e = true
    · rw [if_pos (show ((pySplit qn).any
        (fun word => (!word.isEmpty) && containsSub word (normalize e.question))) = true from h),
        List.find?_cons_of_pos _ h]
      rfl
    · rw [if_neg (show ¬ ((pySplit qn).any
        (fun word => (!word.isEmpty) && containsSub word (normalize e.question))) = true from h),
        List.find?_cons_of_neg _ h]
      exact ih

/-- On a store of well-formed entries the raw-store matcher succeeds and
returns exactly the entry-level result (entry encoded). -/
theorem find_best_answerJ_encode (kb : List Entry) (query : List Char) :
    find_best_answerJ (encodeKB kb) query =
      .ok ((find_best_answer kb query).1.map encodeEntry, (find_best_answer kb query).2) := by
  rw [find_best_answerJ, find_best_answer]
  have hbl := bestLoopJ_encode (normalize query) kb none 0
  rw [show (Option.map encodeEntry none, (0 : ℚ)) = ((none : Option JVal), (0 : ℚ)) from rfl]
    at hbl
  rw [hbl, except_ok_bind]
  dsimp only
  by_cases hth : MATCH_THRESHOLD ≤ (bestLoop (normalize query) kb (none, 0)).2
  · rw [if_pos hth, if_pos hth]
    rfl
  · rw [if_neg hth, if_neg hth]
    rw [fallbackJ_encode (normalize query) kb, except_ok_bind]
    cases hfind : kb.find? (kwHit (normalize query)) with
    | none => rfl
    | some e => rfl

end App
